import Mathlib

/-!
Verification of the crawl scheduler of a web-graph explorer server.

The source is a single JavaScript file (Express + Puppeteer).  Its core is
the function `crawlKHops(startUrl, k)`: a breadth-first, depth-bounded,
budget-capped crawl driven by a FIFO queue of `{url, depth}` entries, a
process-wide visited set `urlCache`, a node map and an edge set, processed
in concurrent batches of at most `LIMITS.CONCURRENT_FETCHES` entries.

The embedding below is polymorphic in the url alphabet `U` (urls are opaque
strings in the source; no string operation of the scheduler itself inspects
their contents — `new URL(u).toString()` is modelled by an abstract
`normalize : U → Option U`, where `none` models the constructor throwing).
The page fetch `getPageInfo` is modelled by a deterministic total function
`fetch : U → FetchOutcome U`; `FetchOutcome.fail` models the caught fetch
error path (timeout, network or navigation error), which the source turns
into `{ title: url, links: [], favicon: null }`.

The edge set of the source is a JS `Set` of `JSON.stringify` images of
`{source: {id}, target: {id}}` objects; since that serialisation is
injective on such pairs and is parsed back verbatim when the result is
assembled, the set of strings is modelled directly as an
insertion-ordered duplicate-free list of `GraphEdge` pairs.

The fields `trace` (entries dispatched to the fetcher, in dispatch order)
and `enqueued` (entries ever placed on the frontier queue, in order) of
`CrawlState` are ghost instrumentation: nothing in the crawl reads them,
they only record the dispatch and enqueue events the claims speak about.

An unhandled exception inside the `try` block of `crawlKHops` is modelled
by the `faultAt` parameter of `crawlLoopE`: `faultAt = some i` throws at
the top of loop iteration `i`, which the `catch` block of the source
converts into the literal result `{ nodes: [], links: [] }` (the
process-wide `urlCache` mutations made so far survive, the accumulated
nodes and links do not).  `faultAt = none` is fault-free execution.
-/

set_option linter.unusedVariables false

/-- The LIMITS constant object of the source: links kept per page. -/
def LIMITS_LINKS_PER_PAGE : Nat := 20

/-- The LIMITS constant object of the source: total node budget. -/
def LIMITS_TOTAL_NODES : Nat := 50

/-- The LIMITS constant object of the source: per-page timeout in ms. -/
def LIMITS_PAGE_TIMEOUT : Nat := 3000

/-- The LIMITS constant object of the source: concurrent fetch width. -/
def LIMITS_CONCURRENT_FETCHES : Nat := 5

/-- A frontier entry, the `{url, depth}` objects held by the crawl queue. -/
structure FrontierEntry (U : Type) where
  url : U
  depth : Nat
deriving DecidableEq

/-- The raw page data produced inside `page.evaluate`: an optional title
(`none` models an empty `document.title`, which the in-page script replaces
by the url), the filtered outbound link list, and an optional favicon. -/
structure RawPage (U : Type) where
  title : Option U
  links : List U
  favicon : Option U
deriving DecidableEq

/-- Outcome of one page fetch: success with raw page data, or a caught
fetch error (timeout, network, navigation). -/
inductive FetchOutcome (U : Type) where
  | ok (page : RawPage U)
  | fail
deriving DecidableEq

/-- The record returned by `getPageInfo` in the source. -/
structure PageInfo (U : Type) where
  title : U
  links : List U
  favicon : Option U
deriving DecidableEq

/-- Model of `getPageInfo(url)`: on success the title falls back to the url
when the document declares none (`document.title || url`); the catch branch
returns `{ title: url, links: [], favicon: null }`. -/
def getPageInfo {U : Type} (fetch : U → FetchOutcome U) (url : U) : PageInfo U :=
  match fetch url with
  | FetchOutcome.ok page =>
      { title := page.title.getD url, links := page.links, favicon := page.favicon }
  | FetchOutcome.fail => { title := url, links := [], favicon := none }

/-- A node of the output graph, as stored in the `nodes` map of the source. -/
structure GraphNode (U : Type) where
  id : U
  title : U
  favicon : Option U
deriving DecidableEq

/-- An edge of the output graph (the parsed form of one element of the
`links` set of the source). -/
structure GraphEdge (U : Type) where
  source : U
  target : U
deriving DecidableEq

/-- The graph returned by `crawlKHops`. -/
structure GraphData (U : Type) where
  nodes : List (GraphNode U)
  links : List (GraphEdge U)
deriving DecidableEq

/-- JS `Set.add`: insert at the end unless already present. -/
def setInsert {A : Type} [DecidableEq A] (l : List A) (a : A) : List A :=
  if a ∈ l then l else l ++ [a]

/-- JS `Map.set` keyed by `id`: replace in place if the key is present,
append otherwise. -/
def mapSet {U : Type} [DecidableEq U] (m : List (GraphNode U)) (n : GraphNode U) :
    List (GraphNode U) :=
  if m.any (fun o => o.id = n.id) then m.map (fun o => if o.id = n.id then n else o)
  else m ++ [n]

/-- The full state of one crawl: the node map, the edge set, the frontier
queue, the visited cache, the processed-result counter, plus the two ghost
event logs `trace` (dispatched entries) and `enqueued` (enqueued entries). -/
structure CrawlState (U : Type) where
  nodes : List (GraphNode U)
  links : List (GraphEdge U)
  queue : List (FrontierEntry U)
  cache : List U
  processedCount : Nat
  trace : List (FrontierEntry U)
  enqueued : List (FrontierEntry U)
deriving DecidableEq

/-- The batch-building inner while loop of `crawlKHops` (source lines
142-159): shift entries off the queue while the batch is not full, skipping
entries deeper than `k`, entries whose url fails to normalize, and entries
already in the cache — except that an entry normalizing to `startUrl` is
always admitted.  Every admitted entry is put in the cache before dispatch.
Returns the batch, the remaining queue and the updated cache. -/
def buildBatch {U : Type} [DecidableEq U] (normalize : U → Option U) (startUrl : U) (k : Nat) :
    List (FrontierEntry U) → List U → List (FrontierEntry U) →
    List (FrontierEntry U) × List (FrontierEntry U) × List U
  | [], cache, batch => (batch, [], cache)
  | next :: rest, cache, batch =>
    if LIMITS_CONCURRENT_FETCHES ≤ batch.length then (batch, next :: rest, cache)
    else if k < next.depth then buildBatch normalize startUrl k rest cache batch
    else
      match normalize next.url with
      | none => buildBatch normalize startUrl k rest cache batch
      | some nu =>
        if nu = startUrl ∨ nu ∉ cache then
          buildBatch normalize startUrl k rest (setInsert cache nu) (batch ++ [⟨nu, next.depth⟩])
        else buildBatch normalize startUrl k rest cache batch

/-- The inner for loop over `pageInfo.links` of one fulfilled result
(source lines 190-211): normalize each outbound link (skip it if the URL
constructor throws), always record the edge, and push the target on the
queue at `depth + 1` only when it is not in the cache.  The ghost `enq` log
mirrors every push. -/
def recordLinks {U : Type} [DecidableEq U] (normalize : U → Option U) (cache : List U)
    (srcUrl : U) (depth : Nat) :
    List U → List (GraphEdge U) → List (FrontierEntry U) → List (FrontierEntry U) →
    List (GraphEdge U) × List (FrontierEntry U) × List (FrontierEntry U)
  | [], links, queue, enq => (links, queue, enq)
  | l :: ls, links, queue, enq =>
    match normalize l with
    | none => recordLinks normalize cache srcUrl depth ls links queue enq
    | some t =>
      let links2 := setInsert links ⟨srcUrl, t⟩
      if t ∈ cache then recordLinks normalize cache srcUrl depth ls links2 queue enq
      else recordLinks normalize cache srcUrl depth ls links2
        (queue ++ [⟨t, depth + 1⟩]) (enq ++ [⟨t, depth + 1⟩])

/-- The first pass over the settled batch (source lines 173-182): record a
graph node for every result, keyed by the fetched url. -/
def firstPass {U : Type} [DecidableEq U] (fetch : U → FetchOutcome U) :
    List (FrontierEntry U) → List (GraphNode U) → List (GraphNode U)
  | [], nodes => nodes
  | r :: rs, nodes =>
    let info := getPageInfo fetch r.url
    firstPass fetch rs (mapSet nodes { id := r.url, title := info.title, favicon := info.favicon })

/-- The second pass over the settled batch (source lines 185-215): for each
result at depth below `k` record its outbound edges and enqueue unseen
targets, and count every result against the node budget. -/
def secondPass {U : Type} [DecidableEq U] (normalize : U → Option U)
    (fetch : U → FetchOutcome U) (k : Nat) (cache : List U) :
    List (FrontierEntry U) → List (GraphEdge U) → List (FrontierEntry U) →
    List (FrontierEntry U) → Nat →
    List (GraphEdge U) × List (FrontierEntry U) × List (FrontierEntry U) × Nat
  | [], links, queue, enq, pc => (links, queue, enq, pc)
  | r :: rs, links, queue, enq, pc =>
    let info := getPageInfo fetch r.url
    let step :=
      if r.depth < k then recordLinks normalize cache r.url r.depth info.links links queue enq
      else (links, queue, enq)
    secondPass normalize fetch k cache rs step.1 step.2.1 step.2.2 (pc + 1)

/-- Result of one iteration of the crawl while loop: continue with a new
state, or halt with a final state. -/
inductive StepResult (U : Type) where
  | cont (s : CrawlState U)
  | halt (s : CrawlState U)
deriving DecidableEq

/-- Outcome of the whole try block of `crawlKHops`: normal completion with
a final state, or an unhandled orchestration exception carrying the state
reached when it was thrown. -/
inductive CrawlOutcome (U : Type) where
  | ok (s : CrawlState U)
  | error (s : CrawlState U)
deriving DecidableEq

/-- One iteration of the while loop of `crawlKHops` (source lines 141-218):
halt if the queue is empty or the processed-result count has reached the
budget; otherwise build a batch, halt if it is empty, else run the two
passes over the settled batch. -/
def crawlStep {U : Type} [DecidableEq U] (normalize : U → Option U)
    (fetch : U → FetchOutcome U) (startUrl : U) (k : Nat) (s : CrawlState U) : StepResult U :=
  if s.queue = [] ∨ LIMITS_TOTAL_NODES ≤ s.processedCount then StepResult.halt s
  else if (buildBatch normalize startUrl k s.queue s.cache []).1 = [] then
    StepResult.halt (CrawlState.mk s.nodes s.links
      (buildBatch normalize startUrl k s.queue s.cache []).2.1
      (buildBatch normalize startUrl k s.queue s.cache []).2.2
      s.processedCount s.trace s.enqueued)
  else
    StepResult.cont (CrawlState.mk
      (firstPass fetch (buildBatch normalize startUrl k s.queue s.cache []).1 s.nodes)
      (secondPass normalize fetch k (buildBatch normalize startUrl k s.queue s.cache []).2.2
        (buildBatch normalize startUrl k s.queue s.cache []).1 s.links
        (buildBatch normalize startUrl k s.queue s.cache []).2.1 s.enqueued s.processedCount).1
      (secondPass normalize fetch k (buildBatch normalize startUrl k s.queue s.cache []).2.2
        (buildBatch normalize startUrl k s.queue s.cache []).1 s.links
        (buildBatch normalize startUrl k s.queue s.cache []).2.1 s.enqueued s.processedCount).2.1
      (buildBatch normalize startUrl k s.queue s.cache []).2.2
      (secondPass normalize fetch k (buildBatch normalize startUrl k s.queue s.cache []).2.2
        (buildBatch normalize startUrl k s.queue s.cache []).1 s.links
        (buildBatch normalize startUrl k s.queue s.cache []).2.1 s.enqueued
        s.processedCount).2.2.2
      (s.trace ++ (buildBatch normalize startUrl k s.queue s.cache []).1)
      (secondPass normalize fetch k (buildBatch normalize startUrl k s.queue s.cache []).2.2
        (buildBatch normalize startUrl k s.queue s.cache []).1 s.links
        (buildBatch normalize startUrl k s.queue s.cache []).2.1 s.enqueued
        s.processedCount).2.2.1)

/-- The crawl while loop with an explicit fuel bound, inside the `try` of
the source: `faultAt = some i` models an unhandled exception thrown during
orchestration at the top of iteration `i`, carrying the state reached at
that point (whose cache mutations survive in the process-wide set); `none`
is returned only on fuel exhaustion, which never happens for the fuel used
by `crawlRun`. -/
def crawlLoopE {U : Type} [DecidableEq U] (normalize : U → Option U)
    (fetch : U → FetchOutcome U) (startUrl : U) (k : Nat) (faultAt : Option Nat) :
    Nat → Nat → CrawlState U → Option (CrawlOutcome U)
  | 0, _, _ => none
  | fuel + 1, i, s =>
    if faultAt = some i then some (CrawlOutcome.error s)
    else
      match crawlStep normalize fetch startUrl k s with
      | StepResult.halt s2 => some (CrawlOutcome.ok s2)
      | StepResult.cont s2 => crawlLoopE normalize fetch startUrl k faultAt fuel (i + 1) s2

/-- The initial crawl state: empty graph, the seed on the queue at depth 0,
and the caller-supplied process-wide cache. -/
def initState {U : Type} (startUrl : U) (cache0 : List U) : CrawlState U :=
  { nodes := [], links := [], queue := [⟨startUrl, 0⟩], cache := cache0,
    processedCount := 0, trace := [], enqueued := [⟨startUrl, 0⟩] }

/-- Run the crawl loop from the initial state with fuel
`LIMITS_TOTAL_NODES + 1`, which is proved sufficient below. -/
def crawlRun {U : Type} [DecidableEq U] (normalize : U → Option U)
    (fetch : U → FetchOutcome U) (startUrl : U) (k : Nat) (cache0 : List U)
    (faultAt : Option Nat) : CrawlOutcome U :=
  (crawlLoopE normalize fetch startUrl k faultAt (LIMITS_TOTAL_NODES + 1) 0
    (initState startUrl cache0)).getD (CrawlOutcome.ok (initState startUrl cache0))

/-- Assembly of the returned graph (source lines 220-238): all recorded
nodes, and the recorded edges filtered to those whose source and target are
both keys of the node map. -/
def graphData {U : Type} [DecidableEq U] (s : CrawlState U) : GraphData U :=
  { nodes := s.nodes,
    links := s.links.filter (fun e =>
      (s.nodes.any (fun n => n.id = e.source)) && (s.nodes.any (fun n => n.id = e.target))) }

/-- Model of `crawlKHops(startUrl, k)`: run the loop; on normal completion
return the assembled graph, on an unhandled orchestration exception the
catch block returns the empty graph.  The second component is the resulting
process-wide `urlCache`. -/
def crawlKHops {U : Type} [DecidableEq U] (normalize : U → Option U)
    (fetch : U → FetchOutcome U) (startUrl : U) (k : Nat) (cache0 : List U)
    (faultAt : Option Nat) : GraphData U × List U :=
  match crawlRun normalize fetch startUrl k cache0 faultAt with
  | CrawlOutcome.ok s => (graphData s, s.cache)
  | CrawlOutcome.error s => ({ nodes := [], links := [] }, s.cache)

/-- The final internal state of a fault-free crawl (the error branch is
unreachable when `faultAt = none`). -/
def crawlFinal {U : Type} [DecidableEq U] (normalize : U → Option U)
    (fetch : U → FetchOutcome U) (startUrl : U) (k : Nat) (cache0 : List U) : CrawlState U :=
  match crawlRun normalize fetch startUrl k cache0 none with
  | CrawlOutcome.ok s => s
  | CrawlOutcome.error s => s

/-- The POST /api/crawl handler (source lines 249-274): optionally clear
the cache, normalize the input url (a failure is reported as an error,
modelled by `none`), delete the normalized url from the cache, and crawl. -/
def apiCrawl {U : Type} [DecidableEq U] (normalize : U → Option U)
    (fetch : U → FetchOutcome U) (url : U) (k : Nat) (reset : Bool) (cache : List U) :
    Option (GraphData U × List U) :=
  match normalize url with
  | none => none
  | some nu =>
    let cache1 := if reset then [] else cache
    let cache2 := cache1.filter (fun v => !(decide (v = nu)))
    some (crawlKHops normalize fetch nu k cache2 none)

/-- Identity normalization on numeric urls, used by concrete test worlds. -/
def idNorm : Nat → Option Nat := fun u => some u

/-- A concrete fetcher: url 0 links to urls 1..60, every other url has no
outbound links. -/
def fanFetch : Nat → FetchOutcome Nat := fun u =>
  if u = 0 then FetchOutcome.ok { title := none, links := (List.range 60).map (fun i => i + 1),
                                  favicon := none }
  else FetchOutcome.ok { title := none, links := [], favicon := none }

/-- A concrete fetcher: url 0 links to url 1 only, everything else empty. -/
def chainFetch : Nat → FetchOutcome Nat := fun u =>
  if u = 0 then FetchOutcome.ok { title := none, links := [1], favicon := none }
  else FetchOutcome.ok { title := none, links := [], favicon := none }

/-- A concrete fetcher with a failing page: url 1 fails to fetch, url 0
links to urls 1 and 2, url 2 has no outbound links. -/
def failFetch : Nat → FetchOutcome Nat := fun u =>
  if u = 0 then FetchOutcome.ok { title := none, links := [1, 2], favicon := none }
  else if u = 1 then FetchOutcome.fail
  else FetchOutcome.ok { title := none, links := [], favicon := none }

/-- The state reached by the `chainFetch` crawl right before iteration 1,
which is where the injected orchestration fault of the counterexample to
the abort behavior strikes. -/
def chainFaultState : CrawlState Nat where
  nodes := [{ id := 0, title := 0, favicon := none }]
  links := [{ source := 0, target := 1 }]
  queue := [{ url := 1, depth := 1 }]
  cache := [0]
  processedCount := 1
  trace := [{ url := 0, depth := 0 }]
  enqueued := [{ url := 0, depth := 0 }, { url := 1, depth := 1 }]

/-! ### Small container lemmas -/

theorem mem_setInsert {A : Type} [DecidableEq A] {l : List A} {a x : A} :
    x ∈ setInsert l a ↔ x ∈ l ∨ x = a := by
  simp only [setInsert]
  split
  · constructor
    · exact fun h => Or.inl h
    · rintro (h | rfl) <;> assumption
  · simp

theorem subset_setInsert {A : Type} [DecidableEq A] {l : List A} (a : A) :
    ∀ x ∈ l, x ∈ setInsert l a := fun x hx => mem_setInsert.2 (Or.inl hx)

theorem self_mem_setInsert {A : Type} [DecidableEq A] (l : List A) (a : A) :
    a ∈ setInsert l a := mem_setInsert.2 (Or.inr rfl)

theorem mapSet_length {U : Type} [DecidableEq U] (m : List (GraphNode U)) (n : GraphNode U) :
    (mapSet m n).length ≤ m.length + 1 := by
  simp only [mapSet]
  split
  · simp
  · simp

theorem self_mem_mapSet {U : Type} [DecidableEq U] (m : List (GraphNode U)) (n : GraphNode U) :
    n ∈ mapSet m n := by
  simp only [mapSet]
  split
  · rename_i h
    rcases List.any_eq_true.1 h with ⟨o, ho, hoe⟩
    refine List.mem_map.2 ⟨o, ho, ?_⟩
    simp [of_decide_eq_true hoe]
  · simp

theorem mem_mapSet_keep {U : Type} [DecidableEq U] {m : List (GraphNode U)} {n x : GraphNode U}
    (hx : x ∈ m) (hid : x.id = n.id → x = n) : x ∈ mapSet m n := by
  simp only [mapSet]
  split
  · refine List.mem_map.2 ⟨x, hx, ?_⟩
    split
    · rename_i h
      exact (hid h).symm
    · rfl
  · exact List.mem_append_left _ hx

/-! ### buildBatch characterization -/

theorem buildBatch_cache_mono {U : Type} [DecidableEq U] (normalize : U → Option U)
    (startUrl : U) (k : Nat) :
    ∀ (q : List (FrontierEntry U)) (cache : List U) (batch : List (FrontierEntry U)),
      ∀ x ∈ cache, x ∈ (buildBatch normalize startUrl k q cache batch).2.2 := by
  intro q
  induction q with
  | nil => intro cache batch x hx; simpa [buildBatch] using hx
  | cons next rest ih =>
    intro cache batch x hx
    simp only [buildBatch]
    split
    · simpa using hx
    split
    · exact ih cache batch x hx
    cases hn : normalize next.url with
    | none => exact ih cache batch x hx
    | some nu =>
      simp only []
      split
      · exact ih _ _ x (subset_setInsert nu x hx)
      · exact ih cache batch x hx

/-- Shape of the batch built by `buildBatch`: the accumulator is a prefix,
and every new entry comes from a queue entry at depth at most `k` whose url
normalizes to the entry url, was admitted only because it is the seed or
was unvisited, and ends up in the output cache. -/
theorem buildBatch_batch_spec {U : Type} [DecidableEq U] (normalize : U → Option U)
    (startUrl : U) (k : Nat) :
    ∀ (q : List (FrontierEntry U)) (cache : List U) (batch : List (FrontierEntry U)),
      ∃ d, (buildBatch normalize startUrl k q cache batch).1 = batch ++ d ∧
        ∀ e ∈ d,
          (∃ p ∈ q, normalize p.url = some e.url ∧ e.depth = p.depth ∧ p.depth ≤ k) ∧
          (e.url = startUrl ∨ e.url ∉ cache) ∧
          e.url ∈ (buildBatch normalize startUrl k q cache batch).2.2 := by
  intro q
  induction q with
  | nil =>
    intro cache batch
    exact ⟨[], by simp [buildBatch], by simp⟩
  | cons next rest ih =>
    intro cache batch
    simp only [buildBatch]
    split
    · exact ⟨[], by simp, by simp⟩
    split
    · rename_i hfull hdepth
      rcases ih cache batch with ⟨d, hd, hmem⟩
      refine ⟨d, hd, fun e he => ?_⟩
      rcases hmem e he with ⟨⟨p, hp, hnp⟩, hfresh, hcout⟩
      exact ⟨⟨p, List.mem_cons_of_mem _ hp, hnp⟩, hfresh, hcout⟩
    cases hn : normalize next.url with
    | none =>
      rename_i hfull hdepth
      rcases ih cache batch with ⟨d, hd, hmem⟩
      refine ⟨d, hd, fun e he => ?_⟩
      rcases hmem e he with ⟨⟨p, hp, hnp⟩, hfresh, hcout⟩
      exact ⟨⟨p, List.mem_cons_of_mem _ hp, hnp⟩, hfresh, hcout⟩
    | some nu =>
      simp only []
      split
      · rename_i hfull hdepth hadm
        rcases ih (setInsert cache nu) (batch ++ [⟨nu, next.depth⟩]) with ⟨d, hd, hmem⟩
        refine ⟨⟨nu, next.depth⟩ :: d, by simpa using hd, fun e he => ?_⟩
        rcases List.mem_cons.1 he with rfl | he2
        · refine ⟨⟨next, List.mem_cons_self _ _, hn, rfl, by omega⟩, hadm, ?_⟩
          exact buildBatch_cache_mono normalize startUrl k rest _ _ nu
            (self_mem_setInsert cache nu)
        · rcases hmem e he2 with ⟨⟨p, hp, hnp⟩, hfresh, hcout⟩
          refine ⟨⟨p, List.mem_cons_of_mem _ hp, hnp⟩, ?_, hcout⟩
          rcases hfresh with h | h
          · exact Or.inl h
          · exact Or.inr fun hc => h (subset_setInsert nu _ hc)
      · rename_i hfull hdepth hadm
        rcases ih cache batch with ⟨d, hd, hmem⟩
        refine ⟨d, hd, fun e he => ?_⟩
        rcases hmem e he with ⟨⟨p, hp, hnp⟩, hfresh, hcout⟩
        exact ⟨⟨p, List.mem_cons_of_mem _ hp, hnp⟩, hfresh, hcout⟩

theorem buildBatch_length {U : Type} [DecidableEq U] (normalize : U → Option U)
    (startUrl : U) (k : Nat) :
    ∀ (q : List (FrontierEntry U)) (cache : List U) (batch : List (FrontierEntry U)),
      batch.length ≤ LIMITS_CONCURRENT_FETCHES →
      (buildBatch normalize startUrl k q cache batch).1.length ≤ LIMITS_CONCURRENT_FETCHES := by
  intro q
  induction q with
  | nil => intro cache batch h; simpa [buildBatch] using h
  | cons next rest ih =>
    intro cache batch h
    simp only [buildBatch]
    split
    · simpa using h
    split
    · exact ih cache batch h
    cases hn : normalize next.url with
    | none => exact ih cache batch h
    | some nu =>
      simp only []
      split
      · rename_i hfull hdepth hadm
        refine ih _ _ ?_
        simp only [List.length_append, List.length_cons, List.length_nil]
        omega
      · exact ih cache batch h

theorem buildBatch_queue_split {U : Type} [DecidableEq U] (normalize : U → Option U)
    (startUrl : U) (k : Nat) :
    ∀ (q : List (FrontierEntry U)) (cache : List U) (batch : List (FrontierEntry U)),
      ∃ c, q = c ++ (buildBatch normalize startUrl k q cache batch).2.1 ∧
        ∃ δ, (buildBatch normalize startUrl k q cache batch).1.map FrontierEntry.depth =
          batch.map FrontierEntry.depth ++ δ ∧ List.Sublist δ (c.map FrontierEntry.depth) := by
  intro q
  induction q with
  | nil =>
    intro cache batch
    exact ⟨[], by simp [buildBatch], [], by simp [buildBatch], by simp⟩
  | cons next rest ih =>
    intro cache batch
    simp only [buildBatch]
    split
    · exact ⟨[], by simp, [], by simp, by simp⟩
    split
    · rcases ih cache batch with ⟨c, hc, δ, hδ, hsub⟩
      exact ⟨next :: c, by simpa using hc, δ, hδ, hsub.cons next.depth⟩
    cases hn : normalize next.url with
    | none =>
      rcases ih cache batch with ⟨c, hc, δ, hδ, hsub⟩
      exact ⟨next :: c, by simpa using hc, δ, hδ, hsub.cons next.depth⟩
    | some nu =>
      simp only []
      split
      · rcases ih (setInsert cache nu) (batch ++ [⟨nu, next.depth⟩]) with ⟨c, hc, δ, hδ, hsub⟩
        refine ⟨next :: c, by simpa using hc, next.depth :: δ, ?_, ?_⟩
        · simpa using hδ
        · exact hsub.cons₂ next.depth
      · rcases ih cache batch with ⟨c, hc, δ, hδ, hsub⟩
        exact ⟨next :: c, by simpa using hc, δ, hδ, hsub.cons next.depth⟩

theorem buildBatch_empty_queue {U : Type} [DecidableEq U] (normalize : U → Option U)
    (startUrl : U) (k : Nat) :
    ∀ (q : List (FrontierEntry U)) (cache : List U),
      (buildBatch normalize startUrl k q cache []).1 = [] →
      (buildBatch normalize startUrl k q cache []).2.1 = [] := by
  intro q
  induction q with
  | nil => intro cache _; simp [buildBatch]
  | cons next rest ih =>
    intro cache hB
    simp only [buildBatch] at hB ⊢
    split at hB
    · rename_i hfull
      simp [LIMITS_CONCURRENT_FETCHES] at hfull
    split at hB
    · rename_i hfull hdepth
      simp only [if_neg hfull, if_pos hdepth] at *
      exact ih cache hB
    rename_i hfull hdepth
    simp only [if_neg hfull, if_neg hdepth] at *
    cases hn : normalize next.url with
    | none =>
      simp only [hn] at hB ⊢
      exact ih cache hB
    | some nu =>
      simp only [hn] at hB ⊢
      split at hB
      · rename_i hadm
        exfalso
        rcases buildBatch_batch_spec normalize startUrl k rest (setInsert cache nu)
          ([] ++ [⟨nu, next.depth⟩]) with ⟨d, hd, _⟩
        rw [hd] at hB
        simp at hB
      · rename_i hadm
        rw [if_neg hadm]
        exact ih cache hB

theorem buildBatch_nodup {U : Type} [DecidableEq U] (normalize : U → Option U)
    (startUrl : U) (k : Nat) :
    ∀ (q : List (FrontierEntry U)) (cache : List U) (batch : List (FrontierEntry U)),
      (∀ p ∈ q, ∀ v, normalize p.url = some v → v ≠ startUrl) →
      (batch.map FrontierEntry.url).Nodup →
      (∀ e ∈ batch, e.url ∈ cache) →
      ((buildBatch normalize startUrl k q cache batch).1.map FrontierEntry.url).Nodup := by
  intro q
  induction q with
  | nil => intro cache batch _ hb _; simpa [buildBatch] using hb
  | cons next rest ih =>
    intro cache batch hq hb hbc
    have hqrest : ∀ p ∈ rest, ∀ v, normalize p.url = some v → v ≠ startUrl :=
      fun p hp => hq p (List.mem_cons_of_mem _ hp)
    simp only [buildBatch]
    split
    · simpa using hb
    split
    · exact ih cache batch hqrest hb hbc
    cases hn : normalize next.url with
    | none => exact ih cache batch hqrest hb hbc
    | some nu =>
      simp only []
      split
      · rename_i hfull hdepth hadm
        have hnusta : nu ≠ startUrl := hq next (List.mem_cons_self _ _) nu hn
        have hnu : nu ∉ cache := by
          rcases hadm with h | h
          · exact absurd h hnusta
          · exact h
        refine ih _ _ hqrest ?_ ?_
        · simp only [List.map_append, List.map_cons, List.map_nil]
          rw [List.nodup_append]
          refine ⟨hb, List.nodup_singleton nu, ?_⟩
          intro x hx hx2
          simp only [List.mem_singleton] at hx2
          subst hx2
          rcases List.mem_map.1 hx with ⟨e, he, hee⟩
          exact hnu (hee ▸ hbc e he)
        · intro e he
          rcases List.mem_append.1 he with h | h
          · exact subset_setInsert nu _ (hbc e h)
          · simp only [List.mem_singleton] at h
            subst h
            exact self_mem_setInsert cache nu
      · exact ih cache batch hqrest hb hbc

/-! ### recordLinks characterization -/

theorem recordLinks_links_mono {U : Type} [DecidableEq U] (normalize : U → Option U)
    (cache : List U) (src : U) (depth : Nat) :
    ∀ (ls : List U) (links : List (GraphEdge U)) (queue enq : List (FrontierEntry U)),
      ∀ e ∈ links, e ∈ (recordLinks normalize cache src depth ls links queue enq).1 := by
  intro ls
  induction ls with
  | nil => intro links queue enq e he; simpa [recordLinks] using he
  | cons l ls ih =>
    intro links queue enq e he
    simp only [recordLinks]
    cases hn : normalize l with
    | none => exact ih links queue enq e he
    | some t =>
      simp only []
      split
      · exact ih _ _ _ e (subset_setInsert _ e he)
      · exact ih _ _ _ e (subset_setInsert _ e he)

theorem recordLinks_links_mem {U : Type} [DecidableEq U] (normalize : U → Option U)
    (cache : List U) (src : U) (depth : Nat) :
    ∀ (ls : List U) (links : List (GraphEdge U)) (queue enq : List (FrontierEntry U)),
      ∀ e ∈ (recordLinks normalize cache src depth ls links queue enq).1,
        e ∈ links ∨ (e.source = src ∧ ∃ l ∈ ls, normalize l = some e.target) := by
  intro ls
  induction ls with
  | nil => intro links queue enq e he; exact Or.inl (by simpa [recordLinks] using he)
  | cons l ls ih =>
    intro links queue enq e he
    simp only [recordLinks] at he
    cases hn : normalize l with
    | none =>
      rw [hn] at he
      rcases ih links queue enq e he with h | ⟨h1, l2, hl2, hn2⟩
      · exact Or.inl h
      · exact Or.inr ⟨h1, l2, List.mem_cons_of_mem _ hl2, hn2⟩
    | some t =>
      rw [hn] at he
      simp only [] at he
      have hmain : e ∈ setInsert links ⟨src, t⟩ ∨
          (e.source = src ∧ ∃ l2 ∈ ls, normalize l2 = some e.target) := by
        split at he
        · exact ih _ _ _ e he
        · exact ih _ _ _ e he
      rcases hmain with h | ⟨h1, l2, hl2, hn2⟩
      · rcases mem_setInsert.1 h with h2 | h2
        · exact Or.inl h2
        · subst h2
          exact Or.inr ⟨rfl, l, List.mem_cons_self _ _, hn⟩
      · exact Or.inr ⟨h1, l2, List.mem_cons_of_mem _ hl2, hn2⟩

theorem recordLinks_links_complete {U : Type} [DecidableEq U] (normalize : U → Option U)
    (cache : List U) (src : U) (depth : Nat) :
    ∀ (ls : List U) (links : List (GraphEdge U)) (queue enq : List (FrontierEntry U)),
      ∀ l ∈ ls, ∀ t, normalize l = some t →
        ({ source := src, target := t } : GraphEdge U) ∈
          (recordLinks normalize cache src depth ls links queue enq).1 := by
  intro ls
  induction ls with
  | nil => intro links queue enq l hl; simp at hl
  | cons l0 ls ih =>
    intro links queue enq l hl t hnt
    simp only [recordLinks]
    rcases List.mem_cons.1 hl with rfl | hl2
    · rw [hnt]
      simp only []
      have hme : ({ source := src, target := t } : GraphEdge U) ∈
          setInsert links ⟨src, t⟩ := self_mem_setInsert links _
      split
      · exact recordLinks_links_mono normalize cache src depth ls _ _ _ _ hme
      · exact recordLinks_links_mono normalize cache src depth ls _ _ _ _ hme
    · cases hn : normalize l0 with
      | none => exact ih links queue enq l hl2 t hnt
      | some t0 =>
        simp only []
        split
        · exact ih _ _ _ l hl2 t hnt
        · exact ih _ _ _ l hl2 t hnt

theorem recordLinks_queue_spec {U : Type} [DecidableEq U] (normalize : U → Option U)
    (cache : List U) (src : U) (depth : Nat) :
    ∀ (ls : List U) (links : List (GraphEdge U)) (queue enq : List (FrontierEntry U)),
      ∃ p, (recordLinks normalize cache src depth ls links queue enq).2.1 = queue ++ p ∧
        (recordLinks normalize cache src depth ls links queue enq).2.2 = enq ++ p ∧
        ∀ e ∈ p, e.depth = depth + 1 ∧ e.url ∉ cache ∧ ∃ l ∈ ls, normalize l = some e.url := by
  intro ls
  induction ls with
  | nil => intro links queue enq; exact ⟨[], by simp [recordLinks], by simp [recordLinks], by simp⟩
  | cons l ls ih =>
    intro links queue enq
    simp only [recordLinks]
    cases hn : normalize l with
    | none =>
      rcases ih links queue enq with ⟨p, h1, h2, h3⟩
      exact ⟨p, h1, h2, fun e he =>
        ⟨(h3 e he).1, (h3 e he).2.1,
          (h3 e he).2.2.elim fun l2 hl2 => ⟨l2, List.mem_cons_of_mem _ hl2.1, hl2.2⟩⟩⟩
    | some t =>
      simp only []
      split
      · rename_i htc
        rcases ih (setInsert links ⟨src, t⟩) queue enq with ⟨p, h1, h2, h3⟩
        exact ⟨p, h1, h2, fun e he =>
          ⟨(h3 e he).1, (h3 e he).2.1,
            (h3 e he).2.2.elim fun l2 hl2 => ⟨l2, List.mem_cons_of_mem _ hl2.1, hl2.2⟩⟩⟩
      · rename_i htc
        rcases ih (setInsert links ⟨src, t⟩) (queue ++ [⟨t, depth + 1⟩])
          (enq ++ [⟨t, depth + 1⟩]) with ⟨p, h1, h2, h3⟩
        refine ⟨⟨t, depth + 1⟩ :: p, ?_, ?_, ?_⟩
        · rw [h1, List.append_assoc]
          rfl
        · rw [h2, List.append_assoc]
          rfl
        · intro e he
          rcases List.mem_cons.1 he with rfl | he2
          · exact ⟨rfl, htc, l, List.mem_cons_self _ _, hn⟩
          · exact ⟨(h3 e he2).1, (h3 e he2).2.1,
              (h3 e he2).2.2.elim fun l2 hl2 => ⟨l2, List.mem_cons_of_mem _ hl2.1, hl2.2⟩⟩


/-! ### secondPass characterization -/

theorem secondPass_pc {U : Type} [DecidableEq U] (normalize : U → Option U)
    (fetch : U → FetchOutcome U) (k : Nat) (cache : List U) :
    ∀ (rs : List (FrontierEntry U)) (links : List (GraphEdge U))
      (queue enq : List (FrontierEntry U)) (pc : Nat),
      (secondPass normalize fetch k cache rs links queue enq pc).2.2.2 = pc + rs.length := by
  intro rs
  induction rs with
  | nil => intro links queue enq pc; simp [secondPass]
  | cons r rs ih =>
    intro links queue enq pc
    simp only [secondPass]
    rw [ih]
    simp only [List.length_cons]
    omega

theorem secondPass_links_mono {U : Type} [DecidableEq U] (normalize : U → Option U)
    (fetch : U → FetchOutcome U) (k : Nat) (cache : List U) :
    ∀ (rs : List (FrontierEntry U)) (links : List (GraphEdge U))
      (queue enq : List (FrontierEntry U)) (pc : Nat),
      ∀ e ∈ links, e ∈ (secondPass normalize fetch k cache rs links queue enq pc).1 := by
  intro rs
  induction rs with
  | nil => intro links queue enq pc e he; simpa [secondPass] using he
  | cons r rs ih =>
    intro links queue enq pc e he
    simp only [secondPass]
    by_cases hdk : r.depth < k
    · simp only [if_pos hdk]
      exact ih _ _ _ _ e
        (recordLinks_links_mono normalize cache r.url r.depth _ links queue enq e he)
    · simp only [if_neg hdk]
      exact ih _ _ _ _ e he

theorem secondPass_links_mem {U : Type} [DecidableEq U] (normalize : U → Option U)
    (fetch : U → FetchOutcome U) (k : Nat) (cache : List U) :
    ∀ (rs : List (FrontierEntry U)) (links : List (GraphEdge U))
      (queue enq : List (FrontierEntry U)) (pc : Nat),
      ∀ e ∈ (secondPass normalize fetch k cache rs links queue enq pc).1,
        e ∈ links ∨ ∃ p ∈ rs, p.depth < k ∧ e.source = p.url ∧
          ∃ l ∈ (getPageInfo fetch p.url).links, normalize l = some e.target := by
  intro rs
  induction rs with
  | nil => intro links queue enq pc e he; exact Or.inl (by simpa [secondPass] using he)
  | cons r rs ih =>
    intro links queue enq pc e he
    simp only [secondPass] at he
    by_cases hdk : r.depth < k
    · simp only [if_pos hdk] at he
      rcases ih _ _ _ _ e he with h | h
      · rcases recordLinks_links_mem normalize cache r.url r.depth _ links queue enq e h with
          h2 | h2
        · exact Or.inl h2
        · exact Or.inr ⟨r, List.mem_cons_self _ _, hdk, h2.1, h2.2⟩
      · rcases h with ⟨p, hp, h2⟩
        exact Or.inr ⟨p, List.mem_cons_of_mem _ hp, h2⟩
    · simp only [if_neg hdk] at he
      rcases ih _ _ _ _ e he with h | h
      · exact Or.inl h
      · rcases h with ⟨p, hp, h2⟩
        exact Or.inr ⟨p, List.mem_cons_of_mem _ hp, h2⟩

theorem secondPass_links_complete {U : Type} [DecidableEq U] (normalize : U → Option U)
    (fetch : U → FetchOutcome U) (k : Nat) (cache : List U) :
    ∀ (rs : List (FrontierEntry U)) (links : List (GraphEdge U))
      (queue enq : List (FrontierEntry U)) (pc : Nat),
      ∀ p ∈ rs, p.depth < k → ∀ l ∈ (getPageInfo fetch p.url).links, ∀ t,
        normalize l = some t →
        ({ source := p.url, target := t } : GraphEdge U) ∈
          (secondPass normalize fetch k cache rs links queue enq pc).1 := by
  intro rs
  induction rs with
  | nil => intro links queue enq pc p hp; simp at hp
  | cons r rs ih =>
    intro links queue enq pc p hp hdp l hl t hnt
    simp only [secondPass]
    rcases List.mem_cons.1 hp with rfl | hp2
    · simp only [if_pos hdp]
      exact secondPass_links_mono normalize fetch k cache rs _ _ _ _ _
        (recordLinks_links_complete normalize cache p.url p.depth _ links queue enq l hl t hnt)
    · by_cases hdk : r.depth < k
      · simp only [if_pos hdk]
        exact ih _ _ _ _ p hp2 hdp l hl t hnt
      · simp only [if_neg hdk]
        exact ih _ _ _ _ p hp2 hdp l hl t hnt

theorem secondPass_queue_spec {U : Type} [DecidableEq U] (normalize : U → Option U)
    (fetch : U → FetchOutcome U) (k : Nat) (cache : List U) :
    ∀ (rs : List (FrontierEntry U)) (links : List (GraphEdge U))
      (queue enq : List (FrontierEntry U)) (pc : Nat),
      ∃ nq, (secondPass normalize fetch k cache rs links queue enq pc).2.1 = queue ++ nq ∧
        (secondPass normalize fetch k cache rs links queue enq pc).2.2.1 = enq ++ nq ∧
        ∀ e ∈ nq, e.url ∉ cache ∧ (∃ l, normalize l = some e.url) ∧
          ∃ p ∈ rs, p.depth < k ∧ e.depth = p.depth + 1 := by
  intro rs
  induction rs with
  | nil =>
    intro links queue enq pc
    exact ⟨[], by simp [secondPass], by simp [secondPass], by simp⟩
  | cons r rs ih =>
    intro links queue enq pc
    simp only [secondPass]
    by_cases hdk : r.depth < k
    · simp only [if_pos hdk]
      rcases recordLinks_queue_spec normalize cache r.url r.depth
        (getPageInfo fetch r.url).links links queue enq with ⟨p1, hq1, he1, hp1⟩
      rcases ih (recordLinks normalize cache r.url r.depth
          (getPageInfo fetch r.url).links links queue enq).1
        (recordLinks normalize cache r.url r.depth
          (getPageInfo fetch r.url).links links queue enq).2.1
        (recordLinks normalize cache r.url r.depth
          (getPageInfo fetch r.url).links links queue enq).2.2 (pc + 1) with ⟨nq, hq2, he2, hp2⟩
      refine ⟨p1 ++ nq, ?_, ?_, ?_⟩
      · rw [hq2, hq1, List.append_assoc]
      · rw [he2, he1, List.append_assoc]
      · intro e he
        rcases List.mem_append.1 he with h | h
        · rcases hp1 e h with ⟨h1, h2, l2, hl2, hn2⟩
          exact ⟨h2, ⟨l2, hn2⟩, r, List.mem_cons_self _ _, hdk, h1⟩
        · rcases hp2 e h with ⟨h1, h2, p, hp, h3⟩
          exact ⟨h1, h2, p, List.mem_cons_of_mem _ hp, h3⟩
    · simp only [if_neg hdk]
      rcases ih links queue enq (pc + 1) with ⟨nq, hq2, he2, hp2⟩
      refine ⟨nq, hq2, he2, fun e he => ?_⟩
      rcases hp2 e he with ⟨h1, h2, p, hp, h3⟩
      exact ⟨h1, h2, p, List.mem_cons_of_mem _ hp, h3⟩

/-! ### firstPass characterization -/

theorem getPageInfo_fail {U : Type} {fetch : U → FetchOutcome U} {u : U}
    (h : fetch u = FetchOutcome.fail) :
    getPageInfo fetch u = { title := u, links := [], favicon := none } := by
  simp [getPageInfo, h]

theorem firstPass_length {U : Type} [DecidableEq U] (fetch : U → FetchOutcome U) :
    ∀ (rs : List (FrontierEntry U)) (nodes : List (GraphNode U)),
      (firstPass fetch rs nodes).length ≤ nodes.length + rs.length := by
  intro rs
  induction rs with
  | nil => intro nodes; simp [firstPass]
  | cons r rs ih =>
    intro nodes
    simp only [firstPass]
    calc (firstPass fetch rs (mapSet nodes _)).length
        ≤ (mapSet nodes _).length + rs.length := ih _
      _ ≤ (nodes.length + 1) + rs.length := by
          exact Nat.add_le_add_right (mapSet_length nodes _) _
      _ = nodes.length + (r :: rs).length := by simp [List.length_cons]; omega

theorem firstPass_keep_fail {U : Type} [DecidableEq U] {fetch : U → FetchOutcome U} {u : U}
    (hu : fetch u = FetchOutcome.fail) :
    ∀ (rs : List (FrontierEntry U)) (nodes : List (GraphNode U)),
      ({ id := u, title := u, favicon := none } : GraphNode U) ∈ nodes →
      ({ id := u, title := u, favicon := none } : GraphNode U) ∈ firstPass fetch rs nodes := by
  intro rs
  induction rs with
  | nil => intro nodes h; simpa [firstPass] using h
  | cons r rs ih =>
    intro nodes h
    simp only [firstPass]
    refine ih _ (mem_mapSet_keep h ?_)
    intro hid
    simp only [] at hid
    subst hid
    simp [getPageInfo_fail hu]

theorem firstPass_intro_fail {U : Type} [DecidableEq U] {fetch : U → FetchOutcome U} {u : U}
    (hu : fetch u = FetchOutcome.fail) :
    ∀ (rs : List (FrontierEntry U)) (nodes : List (GraphNode U)),
      (∃ p ∈ rs, p.url = u) →
      ({ id := u, title := u, favicon := none } : GraphNode U) ∈ firstPass fetch rs nodes := by
  intro rs
  induction rs with
  | nil => intro nodes h; simp at h
  | cons r rs ih =>
    intro nodes h
    rcases h with ⟨p, hp, hpu⟩
    rcases List.mem_cons.1 hp with rfl | hp2
    · subst hpu
      simp only [firstPass]
      refine firstPass_keep_fail hu rs _ ?_
      simpa [getPageInfo_fail hu] using self_mem_mapSet nodes ⟨p.url, p.url, none⟩
    · simp only [firstPass]
      exact ih _ ⟨p, hp2, hpu⟩

/-! ### crawlStep characterization -/

theorem crawlStep_cont_spec {U : Type} [DecidableEq U] {normalize : U → Option U}
    {fetch : U → FetchOutcome U} {startUrl : U} {k : Nat} {s s2 : CrawlState U}
    (h : crawlStep normalize fetch startUrl k s = StepResult.cont s2) :
    ¬(s.queue = [] ∨ LIMITS_TOTAL_NODES ≤ s.processedCount) ∧
    (buildBatch normalize startUrl k s.queue s.cache []).1 ≠ [] ∧
    s2.nodes = firstPass fetch (buildBatch normalize startUrl k s.queue s.cache []).1 s.nodes ∧
    s2.cache = (buildBatch normalize startUrl k s.queue s.cache []).2.2 ∧
    s2.trace = s.trace ++ (buildBatch normalize startUrl k s.queue s.cache []).1 ∧
    s2.links = (secondPass normalize fetch k (buildBatch normalize startUrl k s.queue s.cache []).2.2
      (buildBatch normalize startUrl k s.queue s.cache []).1 s.links
      (buildBatch normalize startUrl k s.queue s.cache []).2.1 s.enqueued s.processedCount).1 ∧
    s2.queue = (secondPass normalize fetch k (buildBatch normalize startUrl k s.queue s.cache []).2.2
      (buildBatch normalize startUrl k s.queue s.cache []).1 s.links
      (buildBatch normalize startUrl k s.queue s.cache []).2.1 s.enqueued s.processedCount).2.1 ∧
    s2.enqueued = (secondPass normalize fetch k
      (buildBatch normalize startUrl k s.queue s.cache []).2.2
      (buildBatch normalize startUrl k s.queue s.cache []).1 s.links
      (buildBatch normalize startUrl k s.queue s.cache []).2.1 s.enqueued s.processedCount).2.2.1 ∧
    s2.processedCount = (secondPass normalize fetch k
      (buildBatch normalize startUrl k s.queue s.cache []).2.2
      (buildBatch normalize startUrl k s.queue s.cache []).1 s.links
      (buildBatch normalize startUrl k s.queue s.cache []).2.1 s.enqueued
      s.processedCount).2.2.2 := by
  unfold crawlStep at h
  split at h
  · exact absurd h (by simp)
  · rename_i hguard
    split at h
    · exact absurd h (by simp)
    · rename_i hbb
      cases h
      exact ⟨hguard, hbb, rfl, rfl, rfl, rfl, rfl, rfl, rfl⟩

theorem crawlStep_halt_spec {U : Type} [DecidableEq U] {normalize : U → Option U}
    {fetch : U → FetchOutcome U} {startUrl : U} {k : Nat} {s s2 : CrawlState U}
    (h : crawlStep normalize fetch startUrl k s = StepResult.halt s2) :
    (s2 = s ∧ (s.queue = [] ∨ LIMITS_TOTAL_NODES ≤ s.processedCount)) ∨
    ((buildBatch normalize startUrl k s.queue s.cache []).1 = [] ∧
      s2.nodes = s.nodes ∧ s2.links = s.links ∧ s2.trace = s.trace ∧
      s2.enqueued = s.enqueued ∧ s2.processedCount = s.processedCount ∧
      s2.queue = [] ∧ s2.cache = (buildBatch normalize startUrl k s.queue s.cache []).2.2 ∧
      ¬(s.queue = [] ∨ LIMITS_TOTAL_NODES ≤ s.processedCount)) := by
  unfold crawlStep at h
  split at h
  · rename_i hguard
    cases h
    exact Or.inl ⟨rfl, hguard⟩
  · rename_i hguard
    split at h
    · rename_i hbb
      cases h
      exact Or.inr ⟨hbb, rfl, rfl, rfl, rfl, rfl,
        buildBatch_empty_queue normalize startUrl k s.queue s.cache hbb, rfl, hguard⟩
    · exact absurd h (by simp)

/-! ### Crawl loop lemmas -/

theorem crawlLoopE_none_ok {U : Type} [DecidableEq U] (normalize : U → Option U)
    (fetch : U → FetchOutcome U) (startUrl : U) (k : Nat) :
    ∀ (fuel i : Nat) (s : CrawlState U) (r : CrawlOutcome U),
      crawlLoopE normalize fetch startUrl k none fuel i s = some r →
      ∃ s2, r = CrawlOutcome.ok s2 := by
  intro fuel
  induction fuel with
  | zero => intro i s r h; simp [crawlLoopE] at h
  | succ fuel ih =>
    intro i s r h
    simp only [crawlLoopE] at h
    rw [if_neg (by simp)] at h
    cases hstep : crawlStep normalize fetch startUrl k s with
    | halt s2 =>
      rw [hstep] at h
      exact ⟨s2, by simpa using h.symm⟩
    | cont s2 =>
      rw [hstep] at h
      exact ih _ _ r h

theorem crawlLoopE_preserve {U : Type} [DecidableEq U] (normalize : U → Option U)
    (fetch : U → FetchOutcome U) (startUrl : U) (k : Nat) (P : CrawlState U → Prop)
    (hcont : ∀ s s2, crawlStep normalize fetch startUrl k s = StepResult.cont s2 → P s → P s2)
    (hhalt : ∀ s s2, crawlStep normalize fetch startUrl k s = StepResult.halt s2 → P s → P s2) :
    ∀ (fuel i : Nat) (s s2 : CrawlState U),
      crawlLoopE normalize fetch startUrl k none fuel i s = some (CrawlOutcome.ok s2) →
      P s → P s2 := by
  intro fuel
  induction fuel with
  | zero => intro i s s2 h; simp [crawlLoopE] at h
  | succ fuel ih =>
    intro i s s2 h hp
    simp only [crawlLoopE] at h
    rw [if_neg (by simp)] at h
    cases hstep : crawlStep normalize fetch startUrl k s with
    | halt s3 =>
      rw [hstep] at h
      have h2 : s3 = s2 := by simpa using h
      exact h2 ▸ hhalt s s3 hstep hp
    | cont s3 =>
      rw [hstep] at h
      exact ih _ s3 s2 h (hcont s s3 hstep hp)

theorem crawlLoopE_total {U : Type} [DecidableEq U] (normalize : U → Option U)
    (fetch : U → FetchOutcome U) (startUrl : U) (k : Nat) :
    ∀ (fuel i : Nat) (s : CrawlState U),
      1 ≤ fuel → LIMITS_TOTAL_NODES + 1 ≤ fuel + s.processedCount →
      ∃ s2, crawlLoopE normalize fetch startUrl k none fuel i s = some (CrawlOutcome.ok s2) ∧
        (s2.queue = [] ∨ LIMITS_TOTAL_NODES ≤ s2.processedCount) := by
  intro fuel
  induction fuel with
  | zero => intro i s h1 h2; omega
  | succ fuel ih =>
    intro i s h1 h2
    simp only [crawlLoopE]
    rw [if_neg (by simp)]
    cases hstep : crawlStep normalize fetch startUrl k s with
    | halt s2 =>
      refine ⟨s2, rfl, ?_⟩
      rcases crawlStep_halt_spec hstep with ⟨rfl, hcond⟩ | ⟨_, _, _, _, _, _, hq, _, _⟩
      · exact hcond
      · exact Or.inl hq
    | cont s2 =>
      rcases crawlStep_cont_spec hstep with ⟨hguard, hbb, _, _, _, _, _, _, hpc⟩
      have hlen : 1 ≤ (buildBatch normalize startUrl k s.queue s.cache []).1.length := by
        cases hB : (buildBatch normalize startUrl k s.queue s.cache []).1 with
        | nil => exact absurd hB hbb
        | cons a l => simp
      have hpc2 : s.processedCount + 1 ≤ s2.processedCount := by
        rw [hpc, secondPass_pc]
        omega
      have hpcle : s.processedCount < LIMITS_TOTAL_NODES := by
        rcases not_or.1 hguard with ⟨_, hle⟩
        omega
      have hf1 : 1 ≤ fuel := by omega
      exact ih (i + 1) s2 hf1 (by omega)

theorem crawlFinal_run {U : Type} [DecidableEq U] (normalize : U → Option U)
    (fetch : U → FetchOutcome U) (startUrl : U) (k : Nat) (cache0 : List U) :
    crawlLoopE normalize fetch startUrl k none (LIMITS_TOTAL_NODES + 1) 0
      (initState startUrl cache0) =
      some (CrawlOutcome.ok (crawlFinal normalize fetch startUrl k cache0)) ∧
    crawlRun normalize fetch startUrl k cache0 none =
      CrawlOutcome.ok (crawlFinal normalize fetch startUrl k cache0) ∧
    ((crawlFinal normalize fetch startUrl k cache0).queue = [] ∨
      LIMITS_TOTAL_NODES ≤ (crawlFinal normalize fetch startUrl k cache0).processedCount) := by
  rcases crawlLoopE_total normalize fetch startUrl k (LIMITS_TOTAL_NODES + 1) 0
    (initState startUrl cache0) (by omega) (by simp [initState]) with ⟨s2, hs2, hcond⟩
  have hrun : crawlRun normalize fetch startUrl k cache0 none = CrawlOutcome.ok s2 := by
    simp [crawlRun, hs2]
  have hfin : crawlFinal normalize fetch startUrl k cache0 = s2 := by
    simp [crawlFinal, hrun]
  rw [hfin]
  exact ⟨hs2, hrun, hcond⟩

/-! ### Budget bound helper -/

theorem crawlFinal_pc_nodes_bound {U : Type} [DecidableEq U] (normalize : U → Option U)
    (fetch : U → FetchOutcome U) (startUrl : U) (k : Nat) (cache0 : List U) :
    (crawlFinal normalize fetch startUrl k cache0).processedCount ≤
      LIMITS_TOTAL_NODES + LIMITS_CONCURRENT_FETCHES - 1 ∧
    (crawlFinal normalize fetch startUrl k cache0).nodes.length ≤
      (crawlFinal normalize fetch startUrl k cache0).processedCount := by
  refine crawlLoopE_preserve normalize fetch startUrl k
    (fun s => s.processedCount ≤ LIMITS_TOTAL_NODES + LIMITS_CONCURRENT_FETCHES - 1 ∧
      s.nodes.length ≤ s.processedCount) ?_ ?_
    (LIMITS_TOTAL_NODES + 1) 0 (initState startUrl cache0) _
    (crawlFinal_run normalize fetch startUrl k cache0).1 ?_
  · intro s s2 hstep hp
    rcases crawlStep_cont_spec hstep with ⟨hguard, hbb, hnodes, _, _, _, _, _, hpc⟩
    have hlen : (buildBatch normalize startUrl k s.queue s.cache []).1.length ≤
        LIMITS_CONCURRENT_FETCHES :=
      buildBatch_length normalize startUrl k s.queue s.cache [] (by simp)
    have hpceq : s2.processedCount =
        s.processedCount + (buildBatch normalize startUrl k s.queue s.cache []).1.length := by
      rw [hpc, secondPass_pc]
    have hguard2 : s.processedCount < LIMITS_TOTAL_NODES := by
      rcases not_or.1 hguard with ⟨_, h2⟩
      omega
    constructor
    · omega
    · rw [hnodes]
      have h3 := firstPass_length fetch (buildBatch normalize startUrl k s.queue s.cache []).1
        s.nodes
      omega
  · intro s s2 hstep hp
    rcases crawlStep_halt_spec hstep with ⟨rfl, _⟩ | ⟨_, hn, _, _, _, hc, _, _, _⟩
    · exact hp
    · rw [hn, hc]
      exact hp
  · exact ⟨by simp [initState], by simp [initState]⟩

/-- Counterexample to C1 as stated: with identity normalization, a seed
page linking to 60 fresh urls, and hop bound 1, the crawl processes 51
results although the budget is 50, because the budget is only tested
before a whole batch of 5 is filled (batch sizes run 1, 5, ..., 5). -/
theorem budget_exceeded_counterexample :
    ¬ ((crawlFinal idNorm fanFetch 0 1 []).processedCount ≤ LIMITS_TOTAL_NODES) := by
  decide

/-- C1 (amended): for every crawl, the total number of processed results
(successes and failures together) never exceeds
totalNodeBudget + concurrentFetches - 1 = 54; the exact budget of 50 can be
overshot by up to one batch minus one, since the budget is only checked
before a whole batch is filled. -/
theorem processed_results_le_budget_plus_batch {U : Type} [DecidableEq U]
    (normalize : U → Option U) (fetch : U → FetchOutcome U) (startUrl : U) (k : Nat)
    (cache0 : List U) :
    (crawlFinal normalize fetch startUrl k cache0).processedCount ≤
      LIMITS_TOTAL_NODES + LIMITS_CONCURRENT_FETCHES - 1 :=
  (crawlFinal_pc_nodes_bound normalize fetch startUrl k cache0).1

/-- C10: the number of processed results, and hence the number of nodes in
the returned graph, never exceeds
totalNodeBudget + concurrentFetches - 1 (54 with the defaults 50 and 5),
because the budget is only checked before filling a whole batch, never
between the individual fetches of a batch. -/
theorem processed_and_nodes_overshoot_bound {U : Type} [DecidableEq U]
    (normalize : U → Option U) (fetch : U → FetchOutcome U) (startUrl : U) (k : Nat)
    (cache0 : List U) :
    (crawlFinal normalize fetch startUrl k cache0).processedCount ≤
      LIMITS_TOTAL_NODES + LIMITS_CONCURRENT_FETCHES - 1 ∧
    (graphData (crawlFinal normalize fetch startUrl k cache0)).nodes.length ≤
      LIMITS_TOTAL_NODES + LIMITS_CONCURRENT_FETCHES - 1 := by
  rcases crawlFinal_pc_nodes_bound normalize fetch startUrl k cache0 with ⟨h1, h2⟩
  exact ⟨h1, le_trans h2 h1⟩

/-- C9: for every seed url, hop bound and total deterministic fetcher, the
crawl loop terminates within the fuel bound totalNodeBudget + 1, and the
final state satisfies the exit condition: the frontier queue is empty
(which also covers the case of a fully drained frontier with no
dispatchable entry left) or the processed-node budget is exhausted. -/
theorem crawl_terminates {U : Type} [DecidableEq U] (normalize : U → Option U)
    (fetch : U → FetchOutcome U) (startUrl : U) (k : Nat) (cache0 : List U) :
    ∃ s2, crawlLoopE normalize fetch startUrl k none (LIMITS_TOTAL_NODES + 1) 0
        (initState startUrl cache0) = some (CrawlOutcome.ok s2) ∧
      (s2.queue = [] ∨ LIMITS_TOTAL_NODES ≤ s2.processedCount) :=
  crawlLoopE_total normalize fetch startUrl k (LIMITS_TOTAL_NODES + 1) 0
    (initState startUrl cache0) (by omega) (by simp [initState])

/-- Counterexample to C2 as stated: the catch block of crawlKHops does not
return the accumulated partial graph: with an orchestration fault injected
at iteration 1 of the chainFetch crawl, the state carried by the exception
holds one node and one edge, yet the returned graph is empty. -/
theorem abort_discards_accumulated_state :
    crawlRun idNorm chainFetch 0 5 [] (some 1) = CrawlOutcome.error chainFaultState ∧
    chainFaultState.nodes ≠ [] ∧
    (crawlKHops idNorm chainFetch 0 5 [] (some 1)).1.nodes = [] ∧
    (crawlKHops idNorm chainFetch 0 5 [] (some 1)).1.links = [] := by
  decide

/-- C2 (amended): if an unhandled exception occurs during scheduler
orchestration, the crawl terminates early and does not propagate the
failure, but it returns the empty graph, discarding the nodes and edges
accumulated up to that point; only the visited-cache mutations survive. -/
theorem abort_returns_empty_graph {U : Type} [DecidableEq U] (normalize : U → Option U)
    (fetch : U → FetchOutcome U) (startUrl : U) (k : Nat) (cache0 : List U)
    (faultAt : Option Nat) (s : CrawlState U)
    (h : crawlRun normalize fetch startUrl k cache0 faultAt = CrawlOutcome.error s) :
    crawlKHops normalize fetch startUrl k cache0 faultAt = (GraphData.mk [] [], s.cache) := by
  unfold crawlKHops
  rw [h]

theorem abort_returns_empty_graph_witness :
    crawlKHops idNorm chainFetch 0 5 [] (some 1) = (GraphData.mk [] [], [0]) :=
  abort_returns_empty_graph idNorm chainFetch 0 5 [] (some 1) chainFaultState (by decide)

/-- C5: in every graph returned by crawlKHops, every recorded edge has a
source and a target that are ids of nodes present in the returned node
list: dangling edges are filtered out during result assembly, and the
aborted branch returns no edges at all. -/
theorem no_dangling_edges {U : Type} [DecidableEq U] (normalize : U → Option U)
    (fetch : U → FetchOutcome U) (startUrl : U) (k : Nat) (cache0 : List U)
    (faultAt : Option Nat) :
    ∀ e ∈ (crawlKHops normalize fetch startUrl k cache0 faultAt).1.links,
      (∃ n ∈ (crawlKHops normalize fetch startUrl k cache0 faultAt).1.nodes, n.id = e.source) ∧
      (∃ n ∈ (crawlKHops normalize fetch startUrl k cache0 faultAt).1.nodes,
        n.id = e.target) := by
  intro e he
  unfold crawlKHops at he ⊢
  cases hrun : crawlRun normalize fetch startUrl k cache0 faultAt with
  | ok s =>
    rw [hrun] at he
    simp only [graphData] at he ⊢
    rcases List.mem_filter.1 he with ⟨hmem, hcond⟩
    rw [Bool.and_eq_true] at hcond
    constructor
    · rcases List.any_eq_true.1 hcond.1 with ⟨n, hn, hid⟩
      exact ⟨n, hn, of_decide_eq_true hid⟩
    · rcases List.any_eq_true.1 hcond.2 with ⟨n, hn, hid⟩
      exact ⟨n, hn, of_decide_eq_true hid⟩
  | error s =>
    rw [hrun] at he
    simp at he

theorem no_dangling_edges_witness :
    (∃ n ∈ (crawlKHops idNorm chainFetch 0 5 [] none).1.nodes,
      n.id = (GraphEdge.mk 0 1).source) ∧
    (∃ n ∈ (crawlKHops idNorm chainFetch 0 5 [] none).1.nodes,
      n.id = (GraphEdge.mk 0 1).target) :=
  no_dangling_edges idNorm chainFetch 0 5 [] none (GraphEdge.mk 0 1) (by decide)

/-! ### C4: edges and source depths -/

theorem getPageInfo_ok {U : Type} {fetch : U → FetchOutcome U} {u : U} {page : RawPage U}
    (h : fetch u = FetchOutcome.ok page) :
    getPageInfo fetch u =
      PageInfo.mk (page.title.getD u) page.links page.favicon := by
  simp [getPageInfo, h]

theorem crawlFinal_edges_spec {U : Type} [DecidableEq U] (normalize : U → Option U)
    (fetch : U → FetchOutcome U) (startUrl : U) (k : Nat) (cache0 : List U) :
    (∀ e ∈ (crawlFinal normalize fetch startUrl k cache0).links,
      ∃ en ∈ (crawlFinal normalize fetch startUrl k cache0).trace,
        en.url = e.source ∧ en.depth < k) ∧
    (∀ en ∈ (crawlFinal normalize fetch startUrl k cache0).trace, en.depth < k →
      ∀ l ∈ (getPageInfo fetch en.url).links, ∀ t, normalize l = some t →
        GraphEdge.mk en.url t ∈ (crawlFinal normalize fetch startUrl k cache0).links) := by
  refine crawlLoopE_preserve normalize fetch startUrl k
    (fun s => (∀ e ∈ s.links, ∃ en ∈ s.trace, en.url = e.source ∧ en.depth < k) ∧
      (∀ en ∈ s.trace, en.depth < k → ∀ l ∈ (getPageInfo fetch en.url).links, ∀ t,
        normalize l = some t → GraphEdge.mk en.url t ∈ s.links)) ?_ ?_
    (LIMITS_TOTAL_NODES + 1) 0 (initState startUrl cache0) _
    (crawlFinal_run normalize fetch startUrl k cache0).1 ?_
  · intro s s2 hstep hp
    rcases crawlStep_cont_spec hstep with ⟨hguard, hbb, _, _, htrace, hlinks, _, _, _⟩
    constructor
    · intro e he
      rw [hlinks] at he
      rcases secondPass_links_mem normalize fetch k _ _ _ _ _ _ e he with h | ⟨p, hpB, h2⟩
      · rcases hp.1 e h with ⟨en, hen, h3⟩
        exact ⟨en, by rw [htrace]; exact List.mem_append_left _ hen, h3⟩
      · exact ⟨p, by rw [htrace]; exact List.mem_append_right _ hpB, h2.2.1.symm, h2.1⟩
    · intro en hen hdk l hl t hnt
      rw [htrace] at hen
      rw [hlinks]
      rcases List.mem_append.1 hen with h | h
      · exact secondPass_links_mono normalize fetch k _ _ _ _ _ _ _
          (hp.2 en h hdk l hl t hnt)
      · exact secondPass_links_complete normalize fetch k _ _ _ _ _ _ en h hdk l hl t hnt
  · intro s s2 hstep hp
    rcases crawlStep_halt_spec hstep with ⟨rfl, _⟩ | ⟨_, _, hl, htr, _, _, _, _, _⟩
    · exact hp
    · rw [hl, htr]
      exact hp
  · exact ⟨by simp [initState], by simp [initState]⟩

/-- C4: no recorded edge originates from a source dispatched at depth at
least k (every edge in the final edge set has a dispatch-trace witness of
depth below k), and for every page successfully fetched at depth below k,
an edge from that page to every link that normalizes is always recorded,
regardless of whether the target is itself enqueued or crawled. -/
theorem edges_source_depth_bounded {U : Type} [DecidableEq U] (normalize : U → Option U)
    (fetch : U → FetchOutcome U) (startUrl : U) (k : Nat) (cache0 : List U) :
    (∀ e ∈ (crawlFinal normalize fetch startUrl k cache0).links,
      ∃ en ∈ (crawlFinal normalize fetch startUrl k cache0).trace,
        en.url = e.source ∧ en.depth < k) ∧
    (∀ en ∈ (crawlFinal normalize fetch startUrl k cache0).trace, en.depth < k →
      ∀ page, fetch en.url = FetchOutcome.ok page →
        ∀ l ∈ page.links, ∀ t, normalize l = some t →
          GraphEdge.mk en.url t ∈ (crawlFinal normalize fetch startUrl k cache0).links) := by
  rcases crawlFinal_edges_spec normalize fetch startUrl k cache0 with ⟨h1, h2⟩
  refine ⟨h1, ?_⟩
  intro en hen hdk page hpage l hl t hnt
  refine h2 en hen hdk l ?_ t hnt
  rw [getPageInfo_ok hpage]
  exact hl

theorem edges_source_depth_bounded_witness :
    GraphEdge.mk 0 1 ∈ (crawlFinal idNorm chainFetch 0 5 []).links :=
  (edges_source_depth_bounded idNorm chainFetch 0 5 []).2 ⟨0, 0⟩ (by decide) (by decide)
    (RawPage.mk none [1] none) (by decide) 1 (by decide) 1 (by decide)

/-! ### Dispatch-trace invariant -/

/-- Idempotence of url normalization, in the partial sense: any successful
normalization result is a fixed point of normalization.  The spec requires
this of the normalization operation, and the source normalizer
`new URL(u).toString()` has it. -/
def Idem {U : Type} (normalize : U → Option U) : Prop :=
  ∀ u v, normalize u = some v → normalize v = some v

theorem buildBatch_seed {U : Type} [DecidableEq U] (normalize : U → Option U) {startUrl : U}
    (k : Nat) (cache : List U) (hstart : normalize startUrl = some startUrl) :
    buildBatch normalize startUrl k [⟨startUrl, 0⟩] cache [] =
      ([⟨startUrl, 0⟩], [], setInsert cache startUrl) := by
  simp [buildBatch, hstart, LIMITS_CONCURRENT_FETCHES]

theorem crawlFinal_trace_spec {U : Type} [DecidableEq U] (normalize : U → Option U)
    (fetch : U → FetchOutcome U) (startUrl : U) (k : Nat) (cache0 : List U)
    (hidem : Idem normalize) (hstart : normalize startUrl = some startUrl) :
    ((crawlFinal normalize fetch startUrl k cache0).trace.map FrontierEntry.url).Nodup ∧
    startUrl ∈ (crawlFinal normalize fetch startUrl k cache0).trace.map FrontierEntry.url := by
  have hP : (fun s : CrawlState U =>
      (s.trace.map FrontierEntry.url).Nodup ∧
      (∀ e ∈ s.trace, e.url ∈ s.cache) ∧
      (∀ e ∈ s.queue, normalize e.url = some e.url) ∧
      ((s.trace = [] ∧ s.queue = [⟨startUrl, 0⟩] ∧ s.processedCount = 0) ∨
        (startUrl ∈ s.cache ∧ startUrl ∈ s.trace.map FrontierEntry.url ∧
          ∀ e ∈ s.queue, e.url ≠ startUrl)))
      (crawlFinal normalize fetch startUrl k cache0) := by
    refine crawlLoopE_preserve normalize fetch startUrl k
      (fun s : CrawlState U =>
        (s.trace.map FrontierEntry.url).Nodup ∧
        (∀ e ∈ s.trace, e.url ∈ s.cache) ∧
        (∀ e ∈ s.queue, normalize e.url = some e.url) ∧
        ((s.trace = [] ∧ s.queue = [⟨startUrl, 0⟩] ∧ s.processedCount = 0) ∨
          (startUrl ∈ s.cache ∧ startUrl ∈ s.trace.map FrontierEntry.url ∧
            ∀ e ∈ s.queue, e.url ≠ startUrl))) ?_ ?_
      (LIMITS_TOTAL_NODES + 1) 0 (initState startUrl cache0) _
      (crawlFinal_run normalize fetch startUrl k cache0).1 ?_
    · intro s s2 hstep hp
      obtain ⟨hnd, htc, hqn, hcase⟩ := hp
      rcases crawlStep_cont_spec hstep with ⟨hguard, hbbne, _, hcache, htrace, _, hqueue, _, _⟩
      have hcachemono : ∀ x ∈ s.cache, x ∈ s2.cache := by
        rw [hcache]
        exact buildBatch_cache_mono normalize startUrl k s.queue s.cache []
      rcases secondPass_queue_spec normalize fetch k
        (buildBatch normalize startUrl k s.queue s.cache []).2.2
        (buildBatch normalize startUrl k s.queue s.cache []).1 s.links
        (buildBatch normalize startUrl k s.queue s.cache []).2.1 s.enqueued
        s.processedCount with ⟨nq, hq1, _, hnq⟩
      rcases hcase with ⟨htr0, hq0, hpc0⟩ | ⟨hstc, hsttr, hqne⟩
      · -- first iteration: the queue is exactly the seed entry
        have hbbeq : buildBatch normalize startUrl k s.queue s.cache [] =
            ([⟨startUrl, 0⟩], [], setInsert s.cache startUrl) := by
          rw [hq0]
          exact buildBatch_seed normalize k s.cache hstart
        have htrace2 : s2.trace = [⟨startUrl, 0⟩] := by
          rw [htrace, htr0, hbbeq]
          rfl
        have hcache2 : s2.cache = setInsert s.cache startUrl := by
          rw [hcache, hbbeq]
        have hqueue2 : s2.queue = nq := by
          rw [hqueue, hq1, hbbeq]
          rfl
        refine ⟨by rw [htrace2]; simp, ?_, ?_, Or.inr ⟨?_, ?_, ?_⟩⟩
        · intro e he
          rw [htrace2] at he
          rw [List.mem_singleton] at he
          subst he
          rw [hcache2]
          exact self_mem_setInsert s.cache startUrl
        · intro e he
          rw [hqueue2] at he
          rcases hnq e he with ⟨_, ⟨l, hl⟩, _⟩
          exact hidem l e.url hl
        · rw [hcache2]
          exact self_mem_setInsert s.cache startUrl
        · rw [htrace2]
          simp
        · intro e he
          rw [hqueue2] at he
          rcases hnq e he with ⟨hnotc, _, _⟩
          intro heq
          rw [hbbeq] at hnotc
          rw [heq] at hnotc
          exact hnotc (self_mem_setInsert s.cache startUrl)
      · -- later iterations: no queue entry normalizes to the seed
        have hqSU : ∀ p ∈ s.queue, ∀ v, normalize p.url = some v → v ≠ startUrl := by
          intro p hp v hv
          have h2 := hqn p hp
          rw [h2] at hv
          injection hv with h3
          subst h3
          exact hqne p hp
        have hBnodup :
            (((buildBatch normalize startUrl k s.queue s.cache []).1.map
              FrontierEntry.url)).Nodup :=
          buildBatch_nodup normalize startUrl k s.queue s.cache [] hqSU (by simp) (by simp)
        rcases buildBatch_batch_spec normalize startUrl k s.queue s.cache [] with ⟨d, hd, hdmem⟩
        rw [List.nil_append] at hd
        have hBfacts : ∀ e ∈ (buildBatch normalize startUrl k s.queue s.cache []).1,
            e.url ∉ s.cache ∧
            e.url ∈ (buildBatch normalize startUrl k s.queue s.cache []).2.2 ∧
            normalize e.url = some e.url := by
          intro e he
          rw [hd] at he
          rcases hdmem e he with ⟨⟨p, hp, hnp, _, _⟩, hfresh, hinC⟩
          have hne : e.url ≠ startUrl := hqSU p hp e.url hnp
          refine ⟨?_, hinC, hidem p.url e.url hnp⟩
          rcases hfresh with h | h
          · exact absurd h hne
          · exact h
        have hQ1mem : ∀ e ∈ (buildBatch normalize startUrl k s.queue s.cache []).2.1,
            e ∈ s.queue := by
          rcases buildBatch_queue_split normalize startUrl k s.queue s.cache [] with ⟨c, hc, _⟩
          intro e he
          rw [hc]
          exact List.mem_append_right _ he
        have hq2mem : ∀ e ∈ s2.queue,
            e ∈ (buildBatch normalize startUrl k s.queue s.cache []).2.1 ∨ e ∈ nq := by
          intro e he
          rw [hqueue, hq1] at he
          exact List.mem_append.1 he
        refine ⟨?_, ?_, ?_, Or.inr ⟨hcachemono startUrl hstc, ?_, ?_⟩⟩
        · rw [htrace, List.map_append]
          rw [List.nodup_append]
          refine ⟨hnd, hBnodup, ?_⟩
          intro a ha hab
          rcases List.mem_map.1 ha with ⟨en, hen, hena⟩
          rcases List.mem_map.1 hab with ⟨e, he, hea⟩
          have h5 := (hBfacts e he).1
          rw [hea] at h5
          rw [← hena] at h5
          exact h5 (htc en hen)
        · intro e he
          rw [htrace] at he
          rcases List.mem_append.1 he with h | h
          · exact hcachemono e.url (htc e h)
          · rw [hcache]
            exact (hBfacts e h).2.1
        · intro e he
          rcases hq2mem e he with h | h
          · exact hqn e (hQ1mem e h)
          · rcases hnq e h with ⟨_, ⟨l, hl⟩, _⟩
            exact hidem l e.url hl
        · rw [htrace, List.map_append]
          exact List.mem_append_left _ hsttr
        · intro e he
          rcases hq2mem e he with h | h
          · exact hqne e (hQ1mem e h)
          · rcases hnq e h with ⟨hnotc, _, _⟩
            intro heq
            rw [heq] at hnotc
            rw [← hcache] at hnotc
            exact hnotc (hcachemono startUrl hstc)
    · intro s s2 hstep hp
      obtain ⟨hnd, htc, hqn, hcase⟩ := hp
      rcases crawlStep_halt_spec hstep with ⟨rfl, _⟩ | hdrain
      · exact ⟨hnd, htc, hqn, hcase⟩
      · obtain ⟨hbbempty, _, _, htr, _, _, hq2, hc2, _⟩ := hdrain
        have hcachemono : ∀ x ∈ s.cache, x ∈ s2.cache := by
          rw [hc2]
          exact buildBatch_cache_mono normalize startUrl k s.queue s.cache []
        refine ⟨by rw [htr]; exact hnd, ?_, ?_, ?_⟩
        · intro e he
          rw [htr] at he
          exact hcachemono e.url (htc e he)
        · intro e he
          rw [hq2] at he
          exact absurd he (List.not_mem_nil e)
        · rcases hcase with ⟨htr0, hq0, hpc0⟩ | ⟨hstc, hsttr, hqne⟩
          · exfalso
            rw [hq0, buildBatch_seed normalize k s.cache hstart] at hbbempty
            simp at hbbempty
          · refine Or.inr ⟨hcachemono startUrl hstc, by rw [htr]; exact hsttr, ?_⟩
            intro e he
            rw [hq2] at he
            exact absurd he (List.not_mem_nil e)
    · refine ⟨by simp [initState], by simp [initState], ?_, Or.inl ⟨rfl, rfl, rfl⟩⟩
      intro e he
      simp only [initState, List.mem_singleton] at he
      subst he
      exact hstart
  rcases hP with ⟨hnd, _, _, hcase⟩
  rcases hcase with ⟨_, hq0, hpc0⟩ | ⟨_, hsttr, _⟩
  · exfalso
    rcases (crawlFinal_run normalize fetch startUrl k cache0).2.2 with hq | hpc
    · rw [hq0] at hq
      simp at hq
    · rw [hpc0] at hpc
      exact absurd hpc (by decide)
  · exact ⟨hnd, hsttr⟩

/-- C3: with idempotent normalization and a seed url that is its own
normalization (as supplied by the crawl endpoint), no url is dispatched to
the fetcher twice within one crawl session: the urls of the dispatch trace
are pairwise distinct, duplicate frontier entries and same-batch duplicates
included, and the seed registry-bypass does not cause a second dispatch. -/
theorem fetch_dispatched_at_most_once {U : Type} [DecidableEq U] (normalize : U → Option U)
    (fetch : U → FetchOutcome U) (startUrl : U) (k : Nat) (cache0 : List U)
    (hidem : Idem normalize) (hstart : normalize startUrl = some startUrl) :
    ((crawlFinal normalize fetch startUrl k cache0).trace.map FrontierEntry.url).Nodup :=
  (crawlFinal_trace_spec normalize fetch startUrl k cache0 hidem hstart).1

theorem fetch_dispatched_at_most_once_witness :
    ((crawlFinal idNorm chainFetch 0 5 []).trace.map FrontierEntry.url).Nodup :=
  fetch_dispatched_at_most_once idNorm chainFetch 0 5 [] (fun _ _ _ => rfl) rfl

/-! ### C7: seed dispatch and pre-seeded registry entries -/

theorem crawlFinal_cache0_spec {U : Type} [DecidableEq U] (normalize : U → Option U)
    (fetch : U → FetchOutcome U) (startUrl : U) (k : Nat) (cache0 : List U) :
    (∀ x ∈ cache0, x ∈ (crawlFinal normalize fetch startUrl k cache0).cache) ∧
    (∀ e ∈ (crawlFinal normalize fetch startUrl k cache0).trace,
      e.url = startUrl ∨ e.url ∉ cache0) := by
  refine crawlLoopE_preserve normalize fetch startUrl k
    (fun s : CrawlState U =>
      (∀ x ∈ cache0, x ∈ s.cache) ∧ (∀ e ∈ s.trace, e.url = startUrl ∨ e.url ∉ cache0))
    ?_ ?_ (LIMITS_TOTAL_NODES + 1) 0 (initState startUrl cache0) _
    (crawlFinal_run normalize fetch startUrl k cache0).1 ?_
  · intro s s2 hstep hp
    rcases crawlStep_cont_spec hstep with ⟨_, _, _, hcache, htrace, _, _, _, _⟩
    have hcm : ∀ x ∈ s.cache, x ∈ s2.cache := by
      rw [hcache]
      exact buildBatch_cache_mono normalize startUrl k s.queue s.cache []
    constructor
    · exact fun x hx => hcm x (hp.1 x hx)
    · intro e he
      rw [htrace] at he
      rcases List.mem_append.1 he with h | h
      · exact hp.2 e h
      · rcases buildBatch_batch_spec normalize startUrl k s.queue s.cache [] with ⟨d, hd, hdmem⟩
        rw [List.nil_append] at hd
        rw [hd] at h
        rcases hdmem e h with ⟨_, hfresh, _⟩
        rcases hfresh with h2 | h2
        · exact Or.inl h2
        · exact Or.inr fun hc => h2 (hp.1 e.url hc)
  · intro s s2 hstep hp
    rcases crawlStep_halt_spec hstep with ⟨rfl, _⟩ | ⟨_, _, _, htr, _, _, _, hc2, _⟩
    · exact hp
    · refine ⟨?_, ?_⟩
      · intro x hx
        rw [hc2]
        exact buildBatch_cache_mono normalize startUrl k s.queue s.cache [] x (hp.1 x hx)
      · intro e he
        rw [htr] at he
        exact hp.2 e he
  · exact ⟨fun x hx => by simpa [initState] using hx, by simp [initState]⟩

/-- C7: the seed url is dispatched exactly once in every crawl, even when
it is present in the visited registry at crawl start (the batch builder
bypasses the registry check for the seed), and the exception applies only
to the seed: any other url already in the registry at crawl start is never
dispatched. -/
theorem seed_dispatched_exactly_once {U : Type} [DecidableEq U] (normalize : U → Option U)
    (fetch : U → FetchOutcome U) (startUrl : U) (k : Nat) (cache0 : List U)
    (hidem : Idem normalize) (hstart : normalize startUrl = some startUrl) :
    ((crawlFinal normalize fetch startUrl k cache0).trace.map FrontierEntry.url).count startUrl
      = 1 ∧
    ∀ v ∈ cache0, v ≠ startUrl →
      v ∉ (crawlFinal normalize fetch startUrl k cache0).trace.map FrontierEntry.url := by
  rcases crawlFinal_trace_spec normalize fetch startUrl k cache0 hidem hstart with ⟨hnd, hmem⟩
  constructor
  · have h1 := List.nodup_iff_count_le_one.1 hnd startUrl
    have h2 := List.count_pos_iff.2 hmem
    omega
  · intro v hv hvne hvmem
    rcases List.mem_map.1 hvmem with ⟨e, he, heq⟩
    rcases (crawlFinal_cache0_spec normalize fetch startUrl k cache0).2 e he with h | h
    · rw [heq] at h
      exact hvne h
    · rw [heq] at h
      exact h hv

theorem seed_dispatched_exactly_once_witness :
    ((crawlFinal idNorm fanFetch 0 1 [0, 7]).trace.map FrontierEntry.url).count 0 = 1 ∧
    7 ∉ (crawlFinal idNorm fanFetch 0 1 [0, 7]).trace.map FrontierEntry.url := by
  have h := seed_dispatched_exactly_once idNorm fanFetch 0 1 [0, 7] (fun _ _ _ => rfl) rfl
  exact ⟨h.1, h.2 7 (by decide) (by decide)⟩

/-! ### C8: failed fetches degrade without surfacing errors -/

theorem crawlFinal_fail_spec {U : Type} [DecidableEq U] (normalize : U → Option U)
    (fetch : U → FetchOutcome U) (startUrl : U) (k : Nat) (cache0 : List U) (u : U)
    (hu : fetch u = FetchOutcome.fail) :
    (∀ e ∈ (crawlFinal normalize fetch startUrl k cache0).links, e.source ≠ u) ∧
    (u ∈ (crawlFinal normalize fetch startUrl k cache0).trace.map FrontierEntry.url →
      (GraphNode.mk u u none ∈ (crawlFinal normalize fetch startUrl k cache0).nodes ∧
        u ∈ (crawlFinal normalize fetch startUrl k cache0).cache)) ∧
    (crawlFinal normalize fetch startUrl k cache0).processedCount =
      (crawlFinal normalize fetch startUrl k cache0).trace.length := by
  refine crawlLoopE_preserve normalize fetch startUrl k
    (fun s : CrawlState U =>
      (∀ e ∈ s.links, e.source ≠ u) ∧
      (u ∈ s.trace.map FrontierEntry.url →
        (GraphNode.mk u u none ∈ s.nodes ∧ u ∈ s.cache)) ∧
      s.processedCount = s.trace.length)
    ?_ ?_ (LIMITS_TOTAL_NODES + 1) 0 (initState startUrl cache0) _
    (crawlFinal_run normalize fetch startUrl k cache0).1 ?_
  · intro s s2 hstep hp
    obtain ⟨hpl, hpn, hppc⟩ := hp
    rcases crawlStep_cont_spec hstep with ⟨_, _, hnodes, hcache, htrace, hlinks, _, _, hpc⟩
    have hcm : ∀ x ∈ s.cache, x ∈ s2.cache := by
      rw [hcache]
      exact buildBatch_cache_mono normalize startUrl k s.queue s.cache []
    rcases buildBatch_batch_spec normalize startUrl k s.queue s.cache [] with ⟨d, hd, hdmem⟩
    rw [List.nil_append] at hd
    refine ⟨?_, ?_, ?_⟩
    · intro e he
      rw [hlinks] at he
      rcases secondPass_links_mem normalize fetch k _ _ _ _ _ _ e he with
        h | ⟨p, hpB, hdk, hsrc, l, hl, _⟩
      · exact hpl e h
      · intro heq
        have hpu : p.url = u := by rw [← hsrc, heq]
        rw [hpu, getPageInfo_fail hu] at hl
        exact absurd hl (List.not_mem_nil l)
    · intro hmem
      rw [htrace, List.map_append] at hmem
      rw [hnodes]
      rcases List.mem_append.1 hmem with h | h
      · rcases hpn h with ⟨hnode, hcc⟩
        exact ⟨firstPass_keep_fail hu _ s.nodes hnode, hcm u hcc⟩
      · rcases List.mem_map.1 h with ⟨p, hpB, hpu⟩
        constructor
        · exact firstPass_intro_fail hu _ s.nodes ⟨p, hpB, hpu⟩
        · rw [hcache]
          rw [hd] at hpB
          rcases hdmem p hpB with ⟨_, _, hinC⟩
          rw [← hpu]
          exact hinC
    · rw [hpc, secondPass_pc, htrace, List.length_append, hppc]
  · intro s s2 hstep hp
    rcases crawlStep_halt_spec hstep with ⟨rfl, _⟩ | ⟨_, hn, hl, htr, _, hpcq, _, hc2, _⟩
    · exact hp
    · obtain ⟨hpl, hpn, hppc⟩ := hp
      refine ⟨?_, ?_, ?_⟩
      · intro e he
        rw [hl] at he
        exact hpl e he
      · intro hmem
        rw [htr] at hmem
        rcases hpn hmem with ⟨h1, h2⟩
        rw [hn, hc2]
        exact ⟨h1, buildBatch_cache_mono normalize startUrl k s.queue s.cache [] u h2⟩
      · rw [hpcq, htr, hppc]
  · exact ⟨by simp [initState], by simp [initState], by simp [initState]⟩

/-- C8: a url whose fetch fails is degraded, not surfaced: if dispatched,
the returned graph still holds a node for it whose title is the url itself
and with no favicon, no edge in the final edge set has it as source, it is
marked visited, it is dispatched at most once (no retry), and it still
counts against the node budget (the processed count equals the number of
dispatched entries, failures included). -/
theorem failed_fetch_degrades {U : Type} [DecidableEq U] (normalize : U → Option U)
    (fetch : U → FetchOutcome U) (startUrl : U) (k : Nat) (cache0 : List U) (u : U)
    (hu : fetch u = FetchOutcome.fail)
    (hidem : Idem normalize) (hstart : normalize startUrl = some startUrl) :
    (u ∈ (crawlFinal normalize fetch startUrl k cache0).trace.map FrontierEntry.url →
      (GraphNode.mk u u none ∈ (graphData (crawlFinal normalize fetch startUrl k cache0)).nodes ∧
        u ∈ (crawlFinal normalize fetch startUrl k cache0).cache)) ∧
    (∀ e ∈ (graphData (crawlFinal normalize fetch startUrl k cache0)).links, e.source ≠ u) ∧
    (((crawlFinal normalize fetch startUrl k cache0).trace.map FrontierEntry.url).count u ≤ 1) ∧
    (crawlFinal normalize fetch startUrl k cache0).processedCount =
      (crawlFinal normalize fetch startUrl k cache0).trace.length := by
  rcases crawlFinal_fail_spec normalize fetch startUrl k cache0 u hu with ⟨hl, hn, hpc⟩
  refine ⟨hn, ?_, ?_, hpc⟩
  · intro e he
    have h2 : e ∈ (crawlFinal normalize fetch startUrl k cache0).links :=
      List.mem_of_mem_filter he
    exact hl e h2
  · exact List.nodup_iff_count_le_one.1
      (crawlFinal_trace_spec normalize fetch startUrl k cache0 hidem hstart).1 u

theorem failed_fetch_degrades_witness :
    (GraphNode.mk 1 1 none ∈ (graphData (crawlFinal idNorm failFetch 0 2 [])).nodes ∧
      1 ∈ (crawlFinal idNorm failFetch 0 2 []).cache) ∧
    (crawlFinal idNorm failFetch 0 2 []).processedCount =
      (crawlFinal idNorm failFetch 0 2 []).trace.length := by
  have h := failed_fetch_degrades idNorm failFetch 0 2 [] 1 (by decide) (fun _ _ _ => rfl) rfl
  exact ⟨h.1 (by decide), h.2.2.2⟩

/-! ### C6: breadth-first dispatch order -/

theorem secondPass_queue_sorted {U : Type} [DecidableEq U] (normalize : U → Option U)
    (fetch : U → FetchOutcome U) (k : Nat) (cache : List U) :
    ∀ (rs : List (FrontierEntry U)) (links : List (GraphEdge U))
      (queue enq : List (FrontierEntry U)) (pc : Nat),
      List.Pairwise (· ≤ ·) (queue.map FrontierEntry.depth) →
      List.Pairwise (· ≤ ·) (rs.map FrontierEntry.depth) →
      (∀ x ∈ queue, ∀ r ∈ rs, x.depth ≤ r.depth + 1) →
      List.Pairwise (· ≤ ·)
        ((secondPass normalize fetch k cache rs links queue enq pc).2.1.map
          FrontierEntry.depth) := by
  intro rs
  induction rs with
  | nil => intro links queue enq pc hq _ _; simpa [secondPass] using hq
  | cons r rs ih =>
    intro links queue enq pc hq hr hqr
    have hrc : List.Pairwise (· ≤ ·) (r.depth :: rs.map FrontierEntry.depth) := by
      simpa using hr
    have hrtail : List.Pairwise (· ≤ ·) (rs.map FrontierEntry.depth) :=
      (List.pairwise_cons.1 hrc).2
    have hrhead : ∀ b ∈ rs, r.depth ≤ b.depth := by
      intro b hb
      exact (List.pairwise_cons.1 hrc).1 b.depth (List.mem_map_of_mem _ hb)
    simp only [secondPass]
    by_cases hdk : r.depth < k
    · simp only [if_pos hdk]
      rcases recordLinks_queue_spec normalize cache r.url r.depth
        (getPageInfo fetch r.url).links links queue enq with ⟨p1, hq1, _, hp1⟩
      refine ih _ _ _ _ ?_ hrtail ?_
      · rw [hq1, List.map_append, List.pairwise_append]
        refine ⟨hq, ?_, ?_⟩
        · refine List.pairwise_of_forall_mem_list ?_
          intro a ha b hb
          rcases List.mem_map.1 ha with ⟨x, hx, hxa⟩
          rcases List.mem_map.1 hb with ⟨y, hy, hyb⟩
          rw [← hxa, ← hyb, (hp1 x hx).1, (hp1 y hy).1]
        · intro a ha b hb
          rcases List.mem_map.1 ha with ⟨x, hx, hxa⟩
          rcases List.mem_map.1 hb with ⟨y, hy, hyb⟩
          rw [← hxa, ← hyb, (hp1 y hy).1]
          exact hqr x hx r (List.mem_cons_self _ _)
      · intro x hx r2 hr2
        rw [hq1] at hx
        rcases List.mem_append.1 hx with h | h
        · exact hqr x h r2 (List.mem_cons_of_mem _ hr2)
        · rw [(hp1 x h).1]
          exact Nat.add_le_add_right (hrhead r2 hr2) 1
    · simp only [if_neg hdk]
      exact ih _ _ _ _ hq hrtail fun x hx r2 hr2 => hqr x hx r2 (List.mem_cons_of_mem _ hr2)

theorem crawlFinal_bfs_spec {U : Type} [DecidableEq U] (normalize : U → Option U)
    (fetch : U → FetchOutcome U) (startUrl : U) (k : Nat) (cache0 : List U) :
    List.Pairwise (· ≤ ·)
      (((crawlFinal normalize fetch startUrl k cache0).trace ++
        (crawlFinal normalize fetch startUrl k cache0).queue).map FrontierEntry.depth) ∧
    (∀ a ∈ (crawlFinal normalize fetch startUrl k cache0).queue,
      ∀ b ∈ (crawlFinal normalize fetch startUrl k cache0).queue,
        a.depth ≤ b.depth + 1) ∧
    (∀ e ∈ (crawlFinal normalize fetch startUrl k cache0).queue, e.depth ≤ k) ∧
    (∀ e ∈ (crawlFinal normalize fetch startUrl k cache0).enqueued, e.depth ≤ k) := by
  refine crawlLoopE_preserve normalize fetch startUrl k
    (fun s : CrawlState U =>
      List.Pairwise (· ≤ ·) ((s.trace ++ s.queue).map FrontierEntry.depth) ∧
      (∀ a ∈ s.queue, ∀ b ∈ s.queue, a.depth ≤ b.depth + 1) ∧
      (∀ e ∈ s.queue, e.depth ≤ k) ∧
      (∀ e ∈ s.enqueued, e.depth ≤ k)) ?_ ?_
    (LIMITS_TOTAL_NODES + 1) 0 (initState startUrl cache0) _
    (crawlFinal_run normalize fetch startUrl k cache0).1 ?_
  · intro s s2 hstep hp
    obtain ⟨hord, hspread, hqk, henqk⟩ := hp
    rcases crawlStep_cont_spec hstep with ⟨_, _, _, _, htrace, _, hqueue, henq2, _⟩
    rcases buildBatch_queue_split normalize startUrl k s.queue s.cache [] with
      ⟨c, hc, δ, hδ, hδsub⟩
    rw [List.map_nil, List.nil_append] at hδ
    rcases secondPass_queue_spec normalize fetch k
      (buildBatch normalize startUrl k s.queue s.cache []).2.2
      (buildBatch normalize startUrl k s.queue s.cache []).1 s.links
      (buildBatch normalize startUrl k s.queue s.cache []).2.1 s.enqueued
      s.processedCount with ⟨nq, hq1, he1, hnq⟩
    have hqm : s.queue.map FrontierEntry.depth =
        c.map FrontierEntry.depth ++
        (buildBatch normalize startUrl k s.queue s.cache []).2.1.map FrontierEntry.depth := by
      rw [← List.map_append, ← hc]
    have hord2 : List.Pairwise (· ≤ ·)
        (s.trace.map FrontierEntry.depth ++ s.queue.map FrontierEntry.depth) := by
      rw [← List.map_append]
      exact hord
    obtain ⟨htsorted, hqsorted, hcross⟩ := List.pairwise_append.1 hord2
    have hδsub2 : List.Sublist
        ((buildBatch normalize startUrl k s.queue s.cache []).1.map FrontierEntry.depth)
        (c.map FrontierEntry.depth) := by
      rw [hδ]
      exact hδsub
    have hcsub : List.Sublist (c.map FrontierEntry.depth) (s.queue.map FrontierEntry.depth) := by
      rw [hqm]
      exact List.sublist_append_left _ _
    have hBsub := hδsub2.trans hcsub
    have hBsorted := hqsorted.sublist hBsub
    have hBd : ∀ p ∈ (buildBatch normalize startUrl k s.queue s.cache []).1,
        p.depth ∈ s.queue.map FrontierEntry.depth :=
      fun p hp => hBsub.subset (List.mem_map_of_mem _ hp)
    have hQ1mem : ∀ e ∈ (buildBatch normalize startUrl k s.queue s.cache []).2.1,
        e ∈ s.queue := by
      intro e he
      rw [hc]
      exact List.mem_append_right _ he
    have hQ1sorted : List.Pairwise (· ≤ ·)
        ((buildBatch normalize startUrl k s.queue s.cache []).2.1.map FrontierEntry.depth) := by
      refine hqsorted.sublist ?_
      rw [hqm]
      exact List.sublist_append_right _ _
    have hspreadD : ∀ a ∈ s.queue.map FrontierEntry.depth,
        ∀ b ∈ s.queue.map FrontierEntry.depth, a ≤ b + 1 := by
      intro a ha b hb
      rcases List.mem_map.1 ha with ⟨x, hx, hxa⟩
      rcases List.mem_map.1 hb with ⟨y, hy, hyb⟩
      rw [← hxa, ← hyb]
      exact hspread x hx y hy
    have hqsorted2 : List.Pairwise (· ≤ ·)
        (c.map FrontierEntry.depth ++
          (buildBatch normalize startUrl k s.queue s.cache []).2.1.map FrontierEntry.depth) := by
      rw [← hqm]
      exact hqsorted
    have hBQ1 : ∀ p ∈ (buildBatch normalize startUrl k s.queue s.cache []).1,
        ∀ q ∈ (buildBatch normalize startUrl k s.queue s.cache []).2.1, p.depth ≤ q.depth := by
      intro p hp q hq2
      exact (List.pairwise_append.1 hqsorted2).2.2 p.depth
        (hδsub2.subset (List.mem_map_of_mem _ hp)) q.depth (List.mem_map_of_mem _ hq2)
    have hq2eq : s2.queue = (buildBatch normalize startUrl k s.queue s.cache []).2.1 ++ nq := by
      rw [hqueue, hq1]
    have henqeq : s2.enqueued = s.enqueued ++ nq := by
      rw [henq2, he1]
    have hq2sorted : List.Pairwise (· ≤ ·) (s2.queue.map FrontierEntry.depth) := by
      rw [hqueue]
      refine secondPass_queue_sorted normalize fetch k _ _ _ _ _ _ hQ1sorted hBsorted ?_
      intro x hx r hr
      exact hspreadD x.depth (List.mem_map_of_mem _ (hQ1mem x hx)) r.depth (hBd r hr)
    refine ⟨?_, ?_, ?_, ?_⟩
    · rw [htrace]
      have hmapeq : ((s.trace ++ (buildBatch normalize startUrl k s.queue s.cache []).1) ++
          s2.queue).map FrontierEntry.depth =
          (s.trace.map FrontierEntry.depth ++
            (buildBatch normalize startUrl k s.queue s.cache []).1.map FrontierEntry.depth) ++
          s2.queue.map FrontierEntry.depth := by
        simp [List.map_append]
      rw [hmapeq, List.pairwise_append]
      refine ⟨?_, hq2sorted, ?_⟩
      · rw [List.pairwise_append]
        refine ⟨htsorted, hBsorted, ?_⟩
        intro a ha b hb
        exact hcross a ha b (hBsub.subset hb)
      · intro a ha y hy
        have hy2 : y ∈ s2.queue.map FrontierEntry.depth := hy
        rw [hq2eq, List.map_append] at hy2
        rcases List.mem_append.1 ha with ha1 | ha1 <;> rcases List.mem_append.1 hy2 with hy1 | hy1
        · rcases List.mem_map.1 hy1 with ⟨e, he, hey⟩
          rw [← hey]
          exact hcross a ha1 e.depth (List.mem_map_of_mem _ (hQ1mem e he))
        · rcases List.mem_map.1 hy1 with ⟨e, he, hey⟩
          rcases (hnq e he).2.2 with ⟨p, hpB, _, hed⟩
          rw [← hey, hed]
          have := hcross a ha1 p.depth (hBd p hpB)
          omega
        · rcases List.mem_map.1 hy1 with ⟨e, he, hey⟩
          rcases List.mem_map.1 ha1 with ⟨p, hpB, hpa⟩
          rw [← hey, ← hpa]
          exact hBQ1 p hpB e he
        · rcases List.mem_map.1 hy1 with ⟨e, he, hey⟩
          rcases List.mem_map.1 ha1 with ⟨p, hpB, hpa⟩
          rcases (hnq e he).2.2 with ⟨q, hqB, _, hed⟩
          rw [← hey, ← hpa, hed]
          have := hspreadD p.depth (hBd p hpB) q.depth (hBd q hqB)
          omega
    · intro a ha b hb
      rw [hq2eq] at ha hb
      rcases List.mem_append.1 ha with ha1 | ha1 <;> rcases List.mem_append.1 hb with hb1 | hb1
      · exact hspread a (hQ1mem a ha1) b (hQ1mem b hb1)
      · rcases (hnq b hb1).2.2 with ⟨p, hpB, _, hbd⟩
        rw [hbd]
        have := hspreadD a.depth (List.mem_map_of_mem _ (hQ1mem a ha1)) p.depth (hBd p hpB)
        omega
      · rcases (hnq a ha1).2.2 with ⟨p, hpB, _, had⟩
        rw [had]
        have := hBQ1 p hpB b hb1
        omega
      · rcases (hnq a ha1).2.2 with ⟨p, hpB, _, had⟩
        rcases (hnq b hb1).2.2 with ⟨q, hqB, _, hbd⟩
        rw [had, hbd]
        have := hspreadD p.depth (hBd p hpB) q.depth (hBd q hqB)
        omega
    · intro e he
      rw [hq2eq] at he
      rcases List.mem_append.1 he with h | h
      · exact hqk e (hQ1mem e h)
      · rcases (hnq e h).2.2 with ⟨p, _, hpk, hed⟩
        omega
    · intro e he
      rw [henqeq] at he
      rcases List.mem_append.1 he with h | h
      · exact henqk e h
      · rcases (hnq e h).2.2 with ⟨p, _, hpk, hed⟩
        omega
  · intro s s2 hstep hp
    obtain ⟨hord, hspread, hqk, henqk⟩ := hp
    rcases crawlStep_halt_spec hstep with ⟨rfl, _⟩ | ⟨_, _, _, htr, henq, _, hq2, _, _⟩
    · exact ⟨hord, hspread, hqk, henqk⟩
    · have hord2 : List.Pairwise (· ≤ ·)
          (s.trace.map FrontierEntry.depth ++ s.queue.map FrontierEntry.depth) := by
        rw [← List.map_append]
        exact hord
      refine ⟨?_, ?_, ?_, ?_⟩
      · rw [htr, hq2, List.append_nil]
        exact (List.pairwise_append.1 hord2).1
      · intro a ha
        rw [hq2] at ha
        exact absurd ha (List.not_mem_nil a)
      · intro e he
        rw [hq2] at he
        exact absurd he (List.not_mem_nil e)
      · intro e he
        rw [henq] at he
        exact henqk e he
  · refine ⟨by simp [initState], ?_, ?_, ?_⟩
    · intro a ha b hb
      simp only [initState, List.mem_singleton] at ha hb
      subst ha
      subst hb
      exact Nat.le_succ 0
    · intro e he
      simp only [initState, List.mem_singleton] at he
      subst he
      exact Nat.zero_le k
    · intro e he
      simp only [initState, List.mem_singleton] at he
      subst he
      exact Nat.zero_le k

/-- C6: frontier entries are dispatched in breadth-first order: the depth
sequence of the dispatch trace is non-decreasing (all entries at one depth
are dispatched before any entry of the next depth) and no entry whose
depth exceeds the hop bound k is ever placed on the frontier queue —
children are only enqueued when the parent depth is below k, and the seed
enters at depth 0. -/
theorem breadth_first_dispatch {U : Type} [DecidableEq U] (normalize : U → Option U)
    (fetch : U → FetchOutcome U) (startUrl : U) (k : Nat) (cache0 : List U) :
    List.Pairwise (· ≤ ·)
      ((crawlFinal normalize fetch startUrl k cache0).trace.map FrontierEntry.depth) ∧
    ∀ e ∈ (crawlFinal normalize fetch startUrl k cache0).enqueued, e.depth ≤ k := by
  rcases crawlFinal_bfs_spec normalize fetch startUrl k cache0 with ⟨hord, _, _, henqk⟩
  refine ⟨?_, henqk⟩
  have hord2 : List.Pairwise (· ≤ ·)
      ((crawlFinal normalize fetch startUrl k cache0).trace.map FrontierEntry.depth ++
        (crawlFinal normalize fetch startUrl k cache0).queue.map FrontierEntry.depth) := by
    rw [← List.map_append]
    exact hord
  exact (List.pairwise_append.1 hord2).1

theorem breadth_first_dispatch_witness :
    (FrontierEntry.mk 1 1 : FrontierEntry Nat).depth ≤ 5 :=
  (breadth_first_dispatch idNorm chainFetch 0 5 []).2 ⟨1, 1⟩ (by decide)
